import Mathlib

/-!
# Verification of the `datastructsalgo` D-ary heap and graph algorithms

Shallow embedding of `datastructsalgo/trees/heaps.py` (class `DHeap` /
`BinaryHeap`), `datastructsalgo/miscellaneous_data_structures/queue.py`
(`BinaryHeapPriorityQueue`) and `datastructsalgo/graphs/algorithms.py`
(`_dijkstra_adjacency_list`, `_minimum_spanning_tree_prim_adjacency_list`),
together with proofs of the specified properties.

The heap's backing store in the source is a `DynamicOneDimensionalArray`
(dense over the occupied positions, grown by `append`, shrunk by `delete` of
the last occupied slot).  We model it as a Lean `List` of nodes; the index
`_last_pos_filled` of the source is `l.length - 1` here.
-/

set_option maxHeartbeats 1000000
set_option linter.unusedSectionVars false

namespace DSA

/-- A heap node, `TreeNode(key, data)` of `utils/misc_util.py` restricted to
the two fields the heap mechanics use. -/
structure HNode (K D : Type) where
  key : K
  data : D
deriving Repr, DecidableEq

instance {K D : Type} [Inhabited K] [Inhabited D] : Inhabited (HNode K D) :=
  ⟨⟨default, default⟩⟩

variable {K D : Type} [Inhabited K] [Inhabited D]

/-- The node stored at index `i` (the source indexes `self.heap[i]`; all
source accesses are in bounds, out-of-range reads return a junk default). -/
def nodeAt (l : List (HNode K D)) (i : Nat) : HNode K D :=
  l.getD i default

/-- Key stored at index `i`. -/
def keyAt (l : List (HNode K D)) (i : Nat) : K :=
  (nodeAt l i).key

/-- Parent index `(i - 1)//d` used by `DHeap.insert`. -/
def dParent (d i : Nat) : Nat :=
  (i - 1) / d

/-- `DHeap._swap(idx1, idx2)`: exchange key and data of two positions. -/
def swapN (l : List (HNode K D)) (i j : Nat) : List (HNode K D) :=
  (l.set i (nodeAt l j)).set j (nodeAt l i)

@[simp] theorem length_swapN (l : List (HNode K D)) (i j : Nat) :
    (swapN l i j).length = l.length := by
  simp [swapN]

theorem nodeAt_eq_getElem (l : List (HNode K D)) (i : Nat) (h : i < l.length) :
    nodeAt l i = l[i] := by
  simp [nodeAt, List.getD_eq_getElem?_getD, List.getElem?_eq_getElem h]

theorem nodeAt_swapN_left (l : List (HNode K D)) {i j : Nat}
    (hi : i < l.length) (hj : j < l.length) :
    nodeAt (swapN l i j) i = nodeAt l j := by
  by_cases hij : i = j
  · subst hij
    rw [nodeAt_eq_getElem _ i (by simpa using hi)]
    simp [swapN, List.getElem_set, nodeAt_eq_getElem l i hi]
  · rw [nodeAt_eq_getElem _ i (by simpa using hi)]
    simp [swapN, List.getElem_set, hij, Ne.symm hij]

theorem nodeAt_swapN_right (l : List (HNode K D)) {i j : Nat}
    (hi : i < l.length) (hj : j < l.length) :
    nodeAt (swapN l i j) j = nodeAt l i := by
  rw [nodeAt_eq_getElem _ j (by simpa using hj)]
  simp [swapN, List.getElem_set, nodeAt_eq_getElem l i hi]

theorem nodeAt_swapN_ne (l : List (HNode K D)) {i j k : Nat}
    (hki : k ≠ i) (hkj : k ≠ j) :
    nodeAt (swapN l i j) k = nodeAt l k := by
  by_cases hk : k < l.length
  · rw [nodeAt_eq_getElem _ k (by simpa using hk), nodeAt_eq_getElem l k hk]
    simp [swapN, List.getElem_set, Ne.symm hki, Ne.symm hkj, hki, hkj]
  · have h1 : l.length ≤ k := Nat.le_of_not_lt hk
    simp [nodeAt, List.getD_eq_getElem?_getD, List.getElem?_eq_none,
      h1, show (swapN l i j).length ≤ k by simpa using h1]

/-- Replacing an element and consing the old one back is a permutation. -/
theorem getD_cons_set_perm (xs : List (HNode K D)) (x : HNode K D) :
    ∀ m : Nat, m < xs.length →
      (xs.getD m default :: xs.set m x).Perm (x :: xs) := by
  induction xs with
  | nil => intro m hm; simp at hm
  | cons y ys ih =>
    intro m hm
    cases m with
    | zero =>
      simpa using List.Perm.swap x y ys
    | succ m =>
      have hm' : m < ys.length := by simpa using hm
      have h1 : (ys.getD m default :: ys.set m x).Perm (x :: ys) := ih m hm'
      have h2 : (ys.getD m default :: y :: ys.set m x).Perm
          (y :: ys.getD m default :: ys.set m x) := List.Perm.swap _ _ _
      have h3 : (y :: ys.getD m default :: ys.set m x).Perm (y :: x :: ys) :=
        h1.cons y
      have h4 : (y :: x :: ys).Perm (x :: y :: ys) := List.Perm.swap _ _ _
      exact (h2.trans h3).trans h4

theorem set_self_eq (l : List (HNode K D)) (i : Nat) (h : i < l.length) :
    l.set i l[i] = l := by
  apply List.ext_getElem
  · simp
  · intro k h1 h2
    simp only [List.getElem_set]
    split
    · rename_i hk; subst hk; rfl
    · rfl

theorem swapN_perm_of_lt (l : List (HNode K D)) :
    ∀ {i j : Nat}, i < j → j < l.length → (swapN l i j).Perm l := by
  induction l with
  | nil => intro i j _ hj; simp at hj
  | cons x xs ih =>
    intro i j hij hj
    cases i with
    | zero =>
      cases j with
      | zero => omega
      | succ m =>
        have hm : m < xs.length := by simpa using hj
        have hkey : swapN (x :: xs) 0 (m+1)
            = nodeAt (x :: xs) (m+1) :: xs.set m x := by
          simp [swapN, nodeAt]
        rw [hkey]
        have hsub : nodeAt (x :: xs) (m+1) = xs.getD m default := rfl
        rw [hsub]
        exact getD_cons_set_perm xs x m hm
    | succ i' =>
      cases j with
      | zero => omega
      | succ j' =>
        have hi' : i' < j' := by omega
        have hj' : j' < xs.length := by simpa using hj
        have hkey : swapN (x :: xs) (i'+1) (j'+1) = x :: swapN xs i' j' := by
          simp [swapN, nodeAt]
        rw [hkey]
        exact (ih hi' hj').cons x

/-- Swapping two in-bounds positions is a permutation of the list. -/
theorem swapN_perm (l : List (HNode K D)) {i j : Nat}
    (hi : i < l.length) (hj : j < l.length) :
    (swapN l i j).Perm l := by
  rcases Nat.lt_trichotomy i j with hlt | heq | hgt
  · exact swapN_perm_of_lt l hlt hj
  · subst heq
    have hkey : swapN l i i = l.set i (nodeAt l i) := by
      simp [swapN, List.set_set]
    rw [hkey, nodeAt_eq_getElem _ i hi, set_self_eq l i hi]
  · have hcomm : swapN l i j = swapN l j i := by
      simp only [swapN]
      rw [List.set_comm _ _ _ (by omega)]
    rw [hcomm]
    exact swapN_perm_of_lt l hgt hi

/-! ## The heap operations of `DHeap` (`trees/heaps.py`)

`comp` is the comparator `self._comp` (parent "dominates" child), `d` the
arity `self.d`.  The source's `self._last_pos_filled` is `l.length - 1`. -/

/-- The scan
`for j in range(l, r+1): if j <= last: target = j if comp(...) else target`
of `DHeap._heapify`: `c` children remain to scan, `j` is the next child
index, `t` the current target.  `j <= self._last_pos_filled` is
`j < l.length`; the `else: break` arm returns the current target (later
indices are larger still, so breaking and ignoring them agree). -/
def hTargetAux (comp : K → K → Bool) (l : List (HNode K D)) :
    Nat → Nat → Nat → Nat
  | 0, _, t => t
  | c+1, j, t =>
    if j < l.length then
      hTargetAux comp l c (j+1)
        (if comp (keyAt l j) (keyAt l t) = true then j else t)
    else t

/-- The target index chosen by one pass of `DHeap._heapify`'s inner loop at
node `i`: children are `d*i + 1 .. d*i + d`, initial target is `i`. -/
def hTarget (comp : K → K → Bool) (d : Nat) (l : List (HNode K D)) (i : Nat) :
    Nat :=
  hTargetAux comp l d (d*i + 1) i

theorem hTargetAux_cases (comp : K → K → Bool) (l : List (HNode K D)) :
    ∀ c j t, hTargetAux comp l c j t = t ∨
      (j ≤ hTargetAux comp l c j t ∧ hTargetAux comp l c j t < j + c ∧
        hTargetAux comp l c j t < l.length) := by
  intro c
  induction c with
  | zero => intro j t; left; rfl
  | succ c ih =>
    intro j t
    by_cases hj : j < l.length
    · simp only [hTargetAux, if_pos hj]
      by_cases hcmp : comp (keyAt l j) (keyAt l t) = true
      · rw [if_pos hcmp]
        rcases ih (j+1) j with h | h
        · right; omega
        · right; omega
      · rw [if_neg hcmp]
        rcases ih (j+1) t with h | h
        · left; exact h
        · right; omega
    · simp only [hTargetAux, if_neg hj]
      left; trivial

theorem hTarget_cases (comp : K → K → Bool) (d : Nat) (l : List (HNode K D))
    (i : Nat) :
    hTarget comp d l i = i ∨
      (d*i + 1 ≤ hTarget comp d l i ∧ hTarget comp d l i < d*i + 1 + d ∧
        hTarget comp d l i < l.length) :=
  hTargetAux_cases comp l d (d*i + 1) i

theorem hTarget_gt (comp : K → K → Bool) (d : Nat) (l : List (HNode K D))
    (i : Nat) (h : hTarget comp d l i ≠ i) :
    i < hTarget comp d l i ∧ hTarget comp d l i < l.length := by
  rcases hTarget_cases comp d l i with hc | hc
  · exact absurd hc h
  · have hd : d = 0 ∨ i ≤ d * i := by
      rcases Nat.eq_zero_or_pos d with h0 | h1
      · exact Or.inl h0
      · exact Or.inr (Nat.le_mul_of_pos_left i h1)
    omega

/-! ## Arithmetic facts about the index structure -/

theorem div_eq_iff_of_pos {n d q : Nat} (hd : 0 < d) :
    n / d = q ↔ d * q ≤ n ∧ n < d * q + d := by
  constructor
  · intro h
    subst h
    refine ⟨Nat.mul_div_le n d, ?_⟩
    have h1 := Nat.div_add_mod n d
    have h2 := Nat.mod_lt n hd
    omega
  · intro ⟨h1, h2⟩
    have e1 : q * d = d * q := by ring
    have e2 : (q + 1) * d = d * q + d := by ring
    have h3 : q ≤ n / d := (Nat.le_div_iff_mul_le hd).mpr (by omega)
    have h4 : n / d < q + 1 := (Nat.div_lt_iff_lt_mul hd).mpr (by omega)
    omega

/-- `j` is a child of `c` exactly when `j` lies in `[d*c+1, d*c+d]`. -/
theorem dParent_eq_iff {d : Nat} (hd : 0 < d) {j c : Nat} (hj : 0 < j) :
    dParent d j = c ↔ d*c + 1 ≤ j ∧ j ≤ d*c + d := by
  unfold dParent
  rw [div_eq_iff_of_pos hd]
  omega

theorem dParent_lt {d j : Nat} (hj : 0 < j) : dParent d j < j := by
  have h1 : (j - 1) / d ≤ j - 1 := Nat.div_le_self _ _
  unfold dParent
  omega

/-- The `while True` loop of `DHeap._heapify(i)`: sift the node at `i`
down, repeatedly swapping it with the chosen target child until the node is
its own target.  `f` is structural-recursion fuel: each iteration moves `i`
strictly down the tree, so `l.length - i < f` guarantees the `0` case is
never reached (`heapifyF_fuel_irrel` below). -/
def heapifyF (comp : K → K → Bool) (d : Nat) :
    Nat → List (HNode K D) → Nat → List (HNode K D)
  | 0, l, _ => l
  | f+1, l, i =>
    if hTarget comp d l i = i then l
    else heapifyF comp d f (swapN l i (hTarget comp d l i))
      (hTarget comp d l i)

/-- `DHeap._heapify(i)` (with always-sufficient fuel). -/
def heapify (comp : K → K → Bool) (d : Nat) (l : List (HNode K D)) (i : Nat) :
    List (HNode K D) :=
  heapifyF comp d (l.length + 1) l i

/-- With sufficient fuel, the fuel amount does not matter: the loop always
terminates by reaching its own target first. -/
theorem heapifyF_fuel_irrel (comp : K → K → Bool) (d : Nat) :
    ∀ (f g : Nat) (l : List (HNode K D)) (i : Nat),
      l.length - i < f → l.length - i < g →
      heapifyF comp d f l i = heapifyF comp d g l i := by
  intro f
  induction f with
  | zero => intro g l i hf; omega
  | succ f ih =>
    intro g l i hf hg
    cases g with
    | zero => omega
    | succ g =>
      simp only [heapifyF]
      split
      · rfl
      · rename_i ht
        have hb := hTarget_gt comp d l i ht
        exact ih g _ _ (by simp only [length_swapN]; omega)
          (by simp only [length_swapN]; omega)

theorem heapify_eq_step (comp : K → K → Bool) (d : Nat)
    (l : List (HNode K D)) (i : Nat) :
    heapify comp d l i =
      if hTarget comp d l i = i then l
      else heapify comp d (swapN l i (hTarget comp d l i))
        (hTarget comp d l i) := by
  unfold heapify
  rw [heapifyF]
  split
  · rfl
  · rename_i ht
    have hb := hTarget_gt comp d l i ht
    exact heapifyF_fuel_irrel comp d _ _ _ _
      (by simp only [length_swapN]; omega)
      (by simp only [length_swapN]; omega)

/-- The `while True` sift-up loop of `DHeap.insert`: while not at the root
and the parent does not dominate, swap with the parent.  Fuel `f` with
`i < f` suffices since the position moves strictly toward the root. -/
def siftUpF (comp : K → K → Bool) (d : Nat) :
    Nat → List (HNode K D) → Nat → List (HNode K D)
  | 0, l, _ => l
  | f+1, l, i =>
    if i = 0 then l
    else if comp (keyAt l (dParent d i)) (keyAt l i) = true then l
    else siftUpF comp d f (swapN l i (dParent d i)) (dParent d i)

/-- The sift-up loop of `DHeap.insert` (with always-sufficient fuel). -/
def siftUp (comp : K → K → Bool) (d : Nat) (l : List (HNode K D)) (i : Nat) :
    List (HNode K D) :=
  siftUpF comp d (i + 1) l i

theorem siftUpF_fuel_irrel (comp : K → K → Bool) (d : Nat) :
    ∀ (f g : Nat) (l : List (HNode K D)) (i : Nat), i < f → i < g →
      siftUpF comp d f l i = siftUpF comp d g l i := by
  intro f
  induction f with
  | zero => intro g l i hf; omega
  | succ f ih =>
    intro g l i hf hg
    cases g with
    | zero => omega
    | succ g =>
      simp only [siftUpF]
      split
      · rfl
      · split
        · rfl
        · rename_i h0 hcmp
          have hp : dParent d i < i := dParent_lt (Nat.pos_of_ne_zero h0)
          exact ih g _ _ (by omega) (by omega)

theorem siftUp_eq_step (comp : K → K → Bool) (d : Nat)
    (l : List (HNode K D)) (i : Nat) :
    siftUp comp d l i =
      if i = 0 then l
      else if comp (keyAt l (dParent d i)) (keyAt l i) = true then l
      else siftUp comp d (swapN l i (dParent d i)) (dParent d i) := by
  unfold siftUp
  rw [siftUpF]
  split
  · rfl
  · split
    · rfl
    · rename_i h0 hcmp
      have hp : dParent d i < i := dParent_lt (Nat.pos_of_ne_zero h0)
      exact siftUpF_fuel_irrel comp d _ _ _ _ (by omega) (by omega)

/-- `DHeap.insert(key, data)`: append a node, then sift it up.  (The
source also records `_leftmost`/`_rightmost` child bounds on the node;
they are only read by `__str__` and do not affect heap mechanics.) -/
def insert (comp : K → K → Bool) (d : Nat) (l : List (HNode K D))
    (k : K) (v : D) : List (HNode K D) :=
  siftUp comp d (l ++ [⟨k, v⟩]) l.length

/-- `DHeap.extract()`: `none` models `raise IndexError("Heap is empty.")`
(`self._last_pos_filled == -1`); otherwise capture the root, swap it with
the last occupied slot, delete that slot, sift the new root down, and
return the captured node with the new heap. -/
def extract (comp : K → K → Bool) (d : Nat) (l : List (HNode K D)) :
    Option (HNode K D × List (HNode K D)) :=
  if l.length = 0 then none
  else some (nodeAt l 0,
    heapify comp d ((swapN l 0 (l.length - 1)).dropLast) 0)

/-- The loop `for i in range((last+1)//d, -1, -1): self._heapify(i)` of
`DHeap._build`, with `k` the next index to heapify. -/
def buildFrom (comp : K → K → Bool) (d : Nat) (l : List (HNode K D)) :
    Nat → List (HNode K D)
  | 0 => heapify comp d l 0
  | k+1 => buildFrom comp d (heapify comp d l (k+1)) k

/-- `DHeap.__new__` + `DHeap._build`: bulk build from the initial elements
(the first `_build` loop only records `_leftmost`/`_rightmost` display
bounds; the heapify loop starts at `(last_pos_filled + 1)//d`). -/
def dheapBuild (comp : K → K → Bool) (d : Nat) (elems : List (HNode K D)) :
    List (HNode K D) :=
  buildFrom comp d elems (elems.length / d)

/-- `DHeap.is_empty`: `self.heap._last_pos_filled == -1`. -/
def is_empty (l : List (HNode K D)) : Bool :=
  l.length = 0

/-- `BinaryHeapPriorityQueue.peek` (`miscellaneous_data_structures/queue.py`):
`none` models `raise IndexError("Priority queue is empty.")`, otherwise the
root node `self.items.heap[0]` is returned without removal. -/
def pqPeek (l : List (HNode K D)) : Option (HNode K D) :=
  if is_empty l then none else some (nodeAt l 0)

/-- Comparators installed by `DHeap.__new__` for the two heap properties:
`min ↦ key_parent <= key_child`, `max ↦ key_parent >= key_child`. -/
inductive Hprop where
  | min : Hprop
  | max : Hprop
deriving DecidableEq, Repr

/-- `self._comp` as selected from `heap_property`. -/
def compOf {K : Type} [LinearOrder K] : Hprop → K → K → Bool
  | .min => fun kp kc => decide (kp ≤ kc)
  | .max => fun kp kc => decide (kp ≥ kc)

/-- The heap invariant: every non-root occupied index is dominated by its
parent `(i-1)//d`. -/
def heapInv (comp : K → K → Bool) (d : Nat) (l : List (HNode K D)) : Prop :=
  ∀ i, i < l.length → 0 < i → comp (keyAt l (dParent d i)) (keyAt l i) = true

instance (comp : K → K → Bool) (d : Nat) (l : List (HNode K D)) :
    Decidable (heapInv comp d l) := by
  unfold heapInv
  infer_instance

/-! ## Permutation and length facts for the operations -/

theorem heapify_perm_aux (comp : K → K → Bool) (d : Nat) :
    ∀ (n : Nat) (l : List (HNode K D)) (i : Nat), l.length - i ≤ n →
      (heapify comp d l i).Perm l := by
  intro n
  induction n with
  | zero =>
    intro l i hn
    rw [heapify_eq_step]
    split
    · exact List.Perm.refl l
    · rename_i h
      have hb := hTarget_gt comp d l i h
      omega
  | succ n ih =>
    intro l i hn
    rw [heapify_eq_step]
    split
    · exact List.Perm.refl l
    · rename_i h
      have hb := hTarget_gt comp d l i h
      have hi : i < l.length := by omega
      have hrec := ih (swapN l i (hTarget comp d l i)) (hTarget comp d l i)
        (by simp only [length_swapN]; omega)
      exact hrec.trans (swapN_perm l hi hb.2)

theorem heapify_perm (comp : K → K → Bool) (d : Nat) (l : List (HNode K D))
    (i : Nat) : (heapify comp d l i).Perm l :=
  heapify_perm_aux comp d l.length l i (by omega)

theorem length_heapify (comp : K → K → Bool) (d : Nat) (l : List (HNode K D))
    (i : Nat) : (heapify comp d l i).length = l.length :=
  (heapify_perm comp d l i).length_eq

theorem siftUp_perm (comp : K → K → Bool) (d : Nat) :
    ∀ (i : Nat) (l : List (HNode K D)), i < l.length →
      (siftUp comp d l i).Perm l := by
  intro i
  induction i using Nat.strong_induction_on with
  | _ i ih =>
    intro l hi
    rw [siftUp_eq_step]
    split
    · exact List.Perm.refl l
    · split
      · exact List.Perm.refl l
      · rename_i h0 hcmp
        have hp : dParent d i < i := dParent_lt (Nat.pos_of_ne_zero h0)
        have hrec := ih (dParent d i) hp (swapN l i (dParent d i))
          (by simpa using Nat.lt_trans hp hi)
        exact hrec.trans (swapN_perm l hi (Nat.lt_trans hp hi))

theorem insert_perm (comp : K → K → Bool) (d : Nat) (l : List (HNode K D))
    (k : K) (v : D) : (insert comp d l k v).Perm (⟨k, v⟩ :: l) := by
  unfold insert
  have h1 : (siftUp comp d (l ++ [⟨k, v⟩]) l.length).Perm (l ++ [⟨k, v⟩]) :=
    siftUp_perm comp d l.length _ (by simp)
  exact h1.trans (List.perm_append_singleton _ l)

theorem length_insert (comp : K → K → Bool) (d : Nat) (l : List (HNode K D))
    (k : K) (v : D) : (insert comp d l k v).length = l.length + 1 := by
  have := (insert_perm comp d l k v).length_eq
  simpa using this

theorem extract_perm (comp : K → K → Bool) (d : Nat) {l : List (HNode K D)}
    {x : HNode K D} {rest : List (HNode K D)}
    (h : extract comp d l = some (x, rest)) :
    x = nodeAt l 0 ∧ (x :: rest).Perm l := by
  unfold extract at h
  split at h
  · exact absurd h (by simp)
  · rename_i hne
    have hx : x = nodeAt l 0 := by
      injection h with h'
      exact (congrArg Prod.fst h').symm
    have hrest : rest = heapify comp d ((swapN l 0 (l.length - 1)).dropLast) 0 := by
      injection h with h'
      exact (congrArg Prod.snd h').symm
    refine ⟨hx, ?_⟩
    have hlen : 0 < l.length := Nat.pos_of_ne_zero hne
    set m := swapN l 0 (l.length - 1) with hm
    have hmlen : m.length = l.length := by simp [hm]
    have hmne : m ≠ [] := by
      intro hc
      rw [hc] at hmlen
      simp at hmlen
      omega
    have hlast : m.getLast hmne = nodeAt l 0 := by
      rw [List.getLast_eq_getElem]
      have : m.length - 1 < m.length := by omega
      rw [← nodeAt_eq_getElem m (m.length - 1) this]
      rw [hmlen]
      exact nodeAt_swapN_right l (by omega) (by omega)
    have hsplit : m.dropLast ++ [nodeAt l 0] = m := by
      rw [← hlast]
      exact List.dropLast_append_getLast hmne
    have hperm1 : (rest).Perm m.dropLast := by
      rw [hrest]
      exact heapify_perm comp d _ 0
    have hperm2 : (x :: rest).Perm (m.dropLast ++ [nodeAt l 0]) := by
      rw [hx]
      exact ((hperm1.cons (nodeAt l 0)).trans
        (List.perm_append_singleton (nodeAt l 0) m.dropLast).symm)
    rw [hsplit] at hperm2
    exact hperm2.trans (swapN_perm l (by omega) (by omega))

theorem length_extract (comp : K → K → Bool) (d : Nat) {l : List (HNode K D)}
    {x : HNode K D} {rest : List (HNode K D)}
    (h : extract comp d l = some (x, rest)) :
    rest.length + 1 = l.length := by
  have := (extract_perm comp d h).2.length_eq
  simpa using this

theorem extract_eq_none_iff (comp : K → K → Bool) (d : Nat)
    (l : List (HNode K D)) : extract comp d l = none ↔ l.length = 0 := by
  unfold extract
  split
  · rename_i h; simp [h]
  · rename_i h; simp [h]

/-! ## The heap invariant is preserved by `insert` (sift-up)

`Htot`/`Htrans` are the totality and transitivity of the comparator; both
comparators produced by `DHeap.__new__` (`<=` and `>=` on a linear order)
satisfy them. -/

theorem keyAt_swapN_left (l : List (HNode K D)) {i j : Nat}
    (hi : i < l.length) (hj : j < l.length) :
    keyAt (swapN l i j) i = keyAt l j :=
  congrArg HNode.key (nodeAt_swapN_left l hi hj)

theorem keyAt_swapN_right (l : List (HNode K D)) {i j : Nat}
    (hi : i < l.length) (hj : j < l.length) :
    keyAt (swapN l i j) j = keyAt l i :=
  congrArg HNode.key (nodeAt_swapN_right l hi hj)

theorem keyAt_swapN_ne (l : List (HNode K D)) {i j k : Nat}
    (hki : k ≠ i) (hkj : k ≠ j) :
    keyAt (swapN l i j) k = keyAt l k :=
  congrArg HNode.key (nodeAt_swapN_ne l hki hkj)

theorem keyAt_append_lt (l l2 : List (HNode K D)) {k : Nat}
    (hk : k < l.length) : keyAt (l ++ l2) k = keyAt l k := by
  unfold keyAt nodeAt
  rw [List.getD_eq_getElem?_getD, List.getD_eq_getElem?_getD,
    List.getElem?_append_left hk]

/-- The state of `DHeap.insert`'s sift-up loop: every non-root pair except
the one at the moving index `i` satisfies the invariant, and (when `i` is
not the root) `i`'s parent already dominates all of `i`'s children. -/
def invExceptUp (comp : K → K → Bool) (d i : Nat)
    (l : List (HNode K D)) : Prop :=
  (∀ j, j < l.length → 0 < j → j ≠ i →
      comp (keyAt l (dParent d j)) (keyAt l j) = true) ∧
  (0 < i → ∀ c, c < l.length → 0 < c → dParent d c = i →
      comp (keyAt l (dParent d i)) (keyAt l c) = true)

theorem siftUp_heapInv (comp : K → K → Bool) (d : Nat)
    (Htot : ∀ a b : K, comp a b = true ∨ comp b a = true)
    (Htrans : ∀ a b c : K, comp a b = true → comp b c = true →
      comp a c = true) :
    ∀ (i : Nat) (l : List (HNode K D)), i < l.length →
      invExceptUp comp d i l → heapInv comp d (siftUp comp d l i) := by
  intro i
  induction i using Nat.strong_induction_on with
  | _ i ih =>
    intro l hi hinv
    rw [siftUp_eq_step]
    split
    · rename_i h0
      subst h0
      intro j hj hj0
      exact hinv.1 j hj hj0 (by omega)
    · split
      · rename_i h0 hcmp
        intro j hj hj0
        by_cases hji : j = i
        · subst hji; exact hcmp
        · exact hinv.1 j hj hj0 hji
      · rename_i h0 hcmp
        have hi0 : 0 < i := Nat.pos_of_ne_zero h0
        have hp : dParent d i < i := dParent_lt hi0
        have hplen : dParent d i < l.length := Nat.lt_trans hp hi
        have hio : comp (keyAt l i) (keyAt l (dParent d i)) = true :=
          (Htot (keyAt l (dParent d i)) (keyAt l i)).resolve_left hcmp
        apply ih (dParent d i) hp (swapN l i (dParent d i))
          (by simpa using hplen)
        constructor
        · -- every pair except the new moving index holds after the swap
          intro j hj hj0 hjp
          have hjlen : j < l.length := by simpa using hj
          by_cases hji : j = i
          · subst hji
            rw [keyAt_swapN_right l hjlen hplen,
              keyAt_swapN_left l hjlen hplen]
            exact hio
          · have hkj : keyAt (swapN l i (dParent d i)) j = keyAt l j :=
              keyAt_swapN_ne l hji hjp
            rw [hkj]
            by_cases hpji : dParent d j = i
            · rw [hpji, keyAt_swapN_left l hi hplen]
              exact hinv.2 hi0 j hjlen hj0 hpji
            · by_cases hpjp : dParent d j = dParent d i
              · rw [hpjp, keyAt_swapN_right l hi hplen]
                have h1 := hinv.1 j hjlen hj0 hji
                rw [hpjp] at h1
                exact Htrans _ _ _ hio h1
              · rw [keyAt_swapN_ne l hpji hpjp]
                exact hinv.1 j hjlen hj0 hji
        · -- the grandparent dominates the children of the new moving index
          intro hp0 c hc hc0 hcp
          have hclen : c < l.length := by simpa using hc
          have hpp : dParent d (dParent d i) < dParent d i := dParent_lt hp0
          have hppi : dParent d (dParent d i) ≠ i := by omega
          have hppp : dParent d (dParent d i) ≠ dParent d i := by omega
          rw [keyAt_swapN_ne l hppi hppp]
          have hpair_p := hinv.1 (dParent d i) hplen hp0 (by omega)
          by_cases hci : c = i
          · subst hci
            rw [keyAt_swapN_left l hi hplen]
            exact hpair_p
          · have hcnep : c ≠ dParent d i := by
              have := dParent_lt (d := d) hc0
              omega
            rw [keyAt_swapN_ne l hci hcnep]
            have h1 := hinv.1 c hclen hc0 hci
            rw [hcp] at h1
            exact Htrans _ _ _ hpair_p h1

/-- `DHeap.insert` preserves the heap invariant. -/
theorem insert_heapInv (comp : K → K → Bool) (d : Nat)
    (Htot : ∀ a b : K, comp a b = true ∨ comp b a = true)
    (Htrans : ∀ a b c : K, comp a b = true → comp b c = true →
      comp a c = true)
    (l : List (HNode K D)) (k : K) (v : D)
    (hinv : heapInv comp d l) :
    heapInv comp d (insert comp d l k v) := by
  unfold insert
  apply siftUp_heapInv comp d Htot Htrans l.length _ (by simp)
  constructor
  · intro j hj hj0 hjn
    have hjlen : j < l.length := by
      simp only [List.length_append, List.length_cons, List.length_nil] at hj
      omega
    have hpj : dParent d j < l.length := Nat.lt_trans (dParent_lt hj0) hjlen
    rw [keyAt_append_lt l _ hjlen, keyAt_append_lt l _ hpj]
    exact hinv j hjlen hj0
  · intro hn0 c hc hc0 hcn
    have := dParent_lt (d := d) hc0
    simp only [List.length_append, List.length_cons, List.length_nil] at hc
    omega

/-! ## The target scan of `_heapify` dominates parent and children -/

theorem comp_refl_of_total (comp : K → K → Bool)
    (Htot : ∀ a b : K, comp a b = true ∨ comp b a = true) (a : K) :
    comp a a = true :=
  (Htot a a).elim id id

theorem hTargetAux_spec (comp : K → K → Bool)
    (Htot : ∀ a b : K, comp a b = true ∨ comp b a = true)
    (Htrans : ∀ a b c : K, comp a b = true → comp b c = true →
      comp a c = true)
    (l : List (HNode K D)) :
    ∀ c j t,
      comp (keyAt l (hTargetAux comp l c j t)) (keyAt l t) = true ∧
      (∀ m, j ≤ m → m < j + c → m < l.length →
        comp (keyAt l (hTargetAux comp l c j t)) (keyAt l m) = true) ∧
      (∀ m, j ≤ m → m < j + c → m < l.length →
        hTargetAux comp l c j t < m →
        comp (keyAt l m) (keyAt l (hTargetAux comp l c j t)) = false) := by
  intro c
  induction c with
  | zero =>
    intro j t
    refine ⟨comp_refl_of_total comp Htot _, ?_, ?_⟩
    · intro m h1 h2; omega
    · intro m h1 h2; omega
  | succ c ih =>
    intro j t
    by_cases hj : j < l.length
    · simp only [hTargetAux, if_pos hj]
      by_cases hcmp : comp (keyAt l j) (keyAt l t) = true
      · rw [if_pos hcmp]
        obtain ⟨IH1, IH2, IH3⟩ := ih (j+1) j
        refine ⟨Htrans _ _ _ IH1 hcmp, ?_, ?_⟩
        · intro m hm1 hm2 hm3
          by_cases hmj : m = j
          · subst hmj; exact IH1
          · exact IH2 m (by omega) (by omega) hm3
        · intro m hm1 hm2 hm3 hlt
          by_cases hmj : m = j
          · subst hmj
            rcases hTargetAux_cases comp l c (m+1) m with hc | hc
            · omega
            · omega
          · exact IH3 m (by omega) (by omega) hm3 hlt
      · rw [if_neg hcmp]
        obtain ⟨IH1, IH2, IH3⟩ := ih (j+1) t
        have hjt : comp (keyAt l t) (keyAt l j) = true :=
          (Htot (keyAt l j) (keyAt l t)).resolve_left hcmp
        refine ⟨IH1, ?_, ?_⟩
        · intro m hm1 hm2 hm3
          by_cases hmj : m = j
          · subst hmj; exact Htrans _ _ _ IH1 hjt
          · exact IH2 m (by omega) (by omega) hm3
        · intro m hm1 hm2 hm3 hlt
          by_cases hmj : m = j
          · subst hmj
            rcases hTargetAux_cases comp l c (m+1) t with hc | hc
            · rw [hc]
              exact Bool.not_eq_true _ |>.mp hcmp
            · omega
          · exact IH3 m (by omega) (by omega) hm3 hlt
    · simp only [hTargetAux, if_neg hj]
      refine ⟨comp_refl_of_total comp Htot _, ?_, ?_⟩
      · intro m h1 h2 h3; omega
      · intro m h1 h2 h3; omega

/-- The chosen target dominates the node itself and every occupied child,
and no occupied child with a larger index dominates (or ties with) it. -/
theorem hTarget_spec (comp : K → K → Bool) (d : Nat)
    (Htot : ∀ a b : K, comp a b = true ∨ comp b a = true)
    (Htrans : ∀ a b c : K, comp a b = true → comp b c = true →
      comp a c = true)
    (l : List (HNode K D)) (i : Nat) :
    comp (keyAt l (hTarget comp d l i)) (keyAt l i) = true ∧
    (∀ m, d*i + 1 ≤ m → m ≤ d*i + d → m < l.length →
      comp (keyAt l (hTarget comp d l i)) (keyAt l m) = true) ∧
    (∀ m, d*i + 1 ≤ m → m ≤ d*i + d → m < l.length →
      hTarget comp d l i < m →
      comp (keyAt l m) (keyAt l (hTarget comp d l i)) = false) := by
  obtain ⟨H1, H2, H3⟩ := hTargetAux_spec comp Htot Htrans l d (d*i + 1) i
  refine ⟨H1, ?_, ?_⟩
  · intro m hm1 hm2 hm3
    exact H2 m hm1 (by omega) hm3
  · intro m hm1 hm2 hm3 hlt
    exact H3 m hm1 (by omega) hm3 hlt

/-! ## The heap invariant is established by sift-down -/

/-- All parent/child pairs whose parent index is at least `k` satisfy the
invariant. -/
def invBelow (comp : K → K → Bool) (d k : Nat) (l : List (HNode K D)) :
    Prop :=
  ∀ j, j < l.length → 0 < j → k ≤ dParent d j →
    comp (keyAt l (dParent d j)) (keyAt l j) = true

theorem invBelow_zero (comp : K → K → Bool) (d : Nat)
    (l : List (HNode K D)) : invBelow comp d 0 l ↔ heapInv comp d l := by
  constructor
  · intro h j hj hj0
    exact h j hj hj0 (Nat.zero_le _)
  · intro h j hj hj0 _
    exact h j hj hj0

theorem keyAt_dropLast (l : List (HNode K D)) {k : Nat}
    (hk : k < l.length - 1) : keyAt l.dropLast k = keyAt l k := by
  unfold keyAt nodeAt
  rw [List.dropLast_eq_take, List.getD_eq_getElem?_getD,
    List.getD_eq_getElem?_getD, List.getElem?_take]
  rw [if_pos hk]

theorem heapify_invBelow (comp : K → K → Bool) (d : Nat) (hd : 0 < d)
    (Htot : ∀ a b : K, comp a b = true ∨ comp b a = true)
    (Htrans : ∀ a b c : K, comp a b = true → comp b c = true →
      comp a c = true) :
    ∀ (n : Nat) (l : List (HNode K D)) (i c : Nat), l.length - c ≤ n →
      i ≤ c →
      (∀ j, j < l.length → 0 < j → i ≤ dParent d j → dParent d j ≠ c →
        comp (keyAt l (dParent d j)) (keyAt l j) = true) →
      (c ≠ i → i ≤ dParent d c ∧ 0 < c ∧
        ∀ ch, ch < l.length → 0 < ch → dParent d ch = c →
          comp (keyAt l (dParent d c)) (keyAt l ch) = true) →
      invBelow comp d i (heapify comp d l c) := by
  intro n
  induction n with
  | zero =>
    intro l i c hn hic ha hb
    rw [heapify_eq_step]
    split
    · rename_i ht
      intro j hj hj0 hpj
      by_cases hpjc : dParent d j = c
      · obtain ⟨HT1, HT2, HT3⟩ := hTarget_spec comp d Htot Htrans l c
        rw [ht] at HT2
        have hjrange := (dParent_eq_iff hd hj0).mp hpjc
        rw [hpjc]
        exact HT2 j hjrange.1 hjrange.2 hj
      · exact ha j hj hj0 hpj hpjc
    · rename_i ht
      have hbound := hTarget_gt comp d l c ht
      omega
  | succ n ih =>
    intro l i c hn hic ha hb
    rw [heapify_eq_step]
    split
    · rename_i ht
      intro j hj hj0 hpj
      by_cases hpjc : dParent d j = c
      · obtain ⟨HT1, HT2, HT3⟩ := hTarget_spec comp d Htot Htrans l c
        rw [ht] at HT2
        have hjrange := (dParent_eq_iff hd hj0).mp hpjc
        rw [hpjc]
        exact HT2 j hjrange.1 hjrange.2 hj
      · exact ha j hj hj0 hpj hpjc
    · rename_i ht
      obtain ⟨HT1, HT2, HT3⟩ := hTarget_spec comp d Htot Htrans l c
      rcases hTarget_cases comp d l c with hcase | hcase
      · exact absurd hcase ht
      set t := hTarget comp d l c with htdef
      have hct : c < t := by
        have hcd : c ≤ d * c := Nat.le_mul_of_pos_left c hd
        omega
      have htlen : t < l.length := hcase.2.2
      have hclen : c < l.length := by omega
      have ht0 : 0 < t := by omega
      have hpt : dParent d t = c := by
        rw [dParent_eq_iff hd ht0]
        omega
      apply ih (swapN l c t) i t (by simp only [length_swapN]; omega)
        (by omega)
      · -- pairs away from the new hole
        intro j hj hj0 hipj hpjt
        have hjlen : j < l.length := by simpa using hj
        by_cases hjt : j = t
        · subst hjt
          rw [hpt, keyAt_swapN_left l hclen htlen,
            keyAt_swapN_right l hclen htlen]
          exact HT1
        · by_cases hjc : j = c
          · subst hjc
            have hpjj : dParent d j < j := dParent_lt hj0
            have hjnei : j ≠ i := by omega
            obtain ⟨hb1, hb2, hb3⟩ := hb (by omega)
            rw [keyAt_swapN_ne l (by omega) (by omega),
              keyAt_swapN_left l hclen htlen]
            exact hb3 t htlen ht0 hpt
          · rw [keyAt_swapN_ne l hjc hjt]
            by_cases hpjc : dParent d j = c
            · rw [hpjc, keyAt_swapN_left l hclen htlen]
              have hjrange := (dParent_eq_iff hd hj0).mp hpjc
              exact HT2 j hjrange.1 hjrange.2 hjlen
            · rw [keyAt_swapN_ne l hpjc hpjt]
              exact ha j hjlen hj0 hipj hpjc
      · -- the new hole's parent dominates the new hole's children
        intro htne
        refine ⟨by rw [hpt]; omega, ht0, ?_⟩
        intro ch hch hch0 hpch
        have hchlen : ch < l.length := by simpa using hch
        have hchrange := (dParent_eq_iff hd hch0).mp hpch
        have htd : t ≤ d * t := Nat.le_mul_of_pos_left t hd
        have hchc : ch ≠ c := by omega
        have hcht : ch ≠ t := by omega
        rw [hpt, keyAt_swapN_left l hclen htlen,
          keyAt_swapN_ne l hchc hcht]
        have hha := ha ch hchlen hch0 (by omega) (by omega)
        rwa [hpch] at hha

/-- One step of the bottom-up build: heapifying index `k` extends the
invariant from parents `≥ k+1` to parents `≥ k`. -/
theorem heapify_invBelow_step (comp : K → K → Bool) (d : Nat) (hd : 0 < d)
    (Htot : ∀ a b : K, comp a b = true ∨ comp b a = true)
    (Htrans : ∀ a b c : K, comp a b = true → comp b c = true →
      comp a c = true)
    (l : List (HNode K D)) (k : Nat) (h : invBelow comp d (k+1) l) :
    invBelow comp d k (heapify comp d l k) := by
  apply heapify_invBelow comp d hd Htot Htrans l.length l k k (by omega)
    (by omega)
  · intro j hj hj0 hkj hne
    exact h j hj hj0 (by omega)
  · intro hne
    exact absurd rfl hne

theorem buildFrom_invBelow (comp : K → K → Bool) (d : Nat) (hd : 0 < d)
    (Htot : ∀ a b : K, comp a b = true ∨ comp b a = true)
    (Htrans : ∀ a b c : K, comp a b = true → comp b c = true →
      comp a c = true) :
    ∀ (k : Nat) (l : List (HNode K D)), invBelow comp d (k+1) l →
      invBelow comp d 0 (buildFrom comp d l k) := by
  intro k
  induction k with
  | zero =>
    intro l h
    exact heapify_invBelow_step comp d hd Htot Htrans l 0 h
  | succ k ih =>
    intro l h
    show invBelow comp d 0 (buildFrom comp d (heapify comp d l (k+1)) k)
    apply ih
    exact heapify_invBelow_step comp d hd Htot Htrans l (k+1) h

/-- `DHeap.__new__`/`DHeap._build` produce a list satisfying the heap
invariant, for any initial elements. -/
theorem dheapBuild_heapInv (comp : K → K → Bool) (d : Nat) (hd : 0 < d)
    (Htot : ∀ a b : K, comp a b = true ∨ comp b a = true)
    (Htrans : ∀ a b c : K, comp a b = true → comp b c = true →
      comp a c = true)
    (elems : List (HNode K D)) :
    heapInv comp d (dheapBuild comp d elems) := by
  rw [← invBelow_zero]
  apply buildFrom_invBelow comp d hd Htot Htrans
  intro j hj hj0 hle
  exfalso
  have h1 : dParent d j ≤ (elems.length - 1) / d := by
    unfold dParent
    exact Nat.div_le_div_right (by omega)
  have h2 : (elems.length - 1) / d ≤ elems.length / d :=
    Nat.div_le_div_right (by omega)
  omega

/-- `DHeap.extract` preserves the heap invariant on the remaining heap. -/
theorem extract_heapInv (comp : K → K → Bool) (d : Nat) (hd : 0 < d)
    (Htot : ∀ a b : K, comp a b = true ∨ comp b a = true)
    (Htrans : ∀ a b c : K, comp a b = true → comp b c = true →
      comp a c = true)
    {l : List (HNode K D)} {x : HNode K D} {rest : List (HNode K D)}
    (hinv : heapInv comp d l)
    (h : extract comp d l = some (x, rest)) :
    heapInv comp d rest := by
  unfold extract at h
  split at h
  · exact absurd h (by simp)
  · rename_i hne
    have hlen : 0 < l.length := Nat.pos_of_ne_zero hne
    have hrest : rest = heapify comp d ((swapN l 0 (l.length - 1)).dropLast) 0 := by
      injection h with h'
      exact (congrArg Prod.snd h').symm
    set m0 := (swapN l 0 (l.length - 1)).dropLast with hm0
    have hm0len : m0.length = l.length - 1 := by
      simp [hm0]
    rw [hrest, ← invBelow_zero]
    apply heapify_invBelow_step comp d hd Htot Htrans
    intro j hj hj0 hle
    have hjlen : j < l.length - 1 := by omega
    have hpj : dParent d j < l.length - 1 :=
      Nat.lt_trans (dParent_lt hj0) hjlen
    have hswaplen : (swapN l 0 (l.length - 1)).length = l.length := by simp
    rw [hm0, keyAt_dropLast _ (by omega), keyAt_dropLast _ (by omega)]
    rw [keyAt_swapN_ne l (by omega) (by omega),
      keyAt_swapN_ne l (by omega) (by omega)]
    exact hinv j (by omega) hj0

/-- In a valid heap the root key dominates every occupied key. -/
theorem heapInv_root_dominates (comp : K → K → Bool) (d : Nat)
    (Htot : ∀ a b : K, comp a b = true ∨ comp b a = true)
    (Htrans : ∀ a b c : K, comp a b = true → comp b c = true →
      comp a c = true)
    {l : List (HNode K D)} (hinv : heapInv comp d l) :
    ∀ j, j < l.length → comp (keyAt l 0) (keyAt l j) = true := by
  intro j
  induction j using Nat.strong_induction_on with
  | _ j ih =>
    intro hj
    cases Nat.eq_zero_or_pos j with
    | inl h0 =>
      subst h0
      exact comp_refl_of_total comp Htot _
    | inr h0 =>
      have hp : dParent d j < j := dParent_lt h0
      have h1 := ih (dParent d j) hp (by omega)
      exact Htrans _ _ _ h1 (hinv j hj h0)

/-! ## Repeated extraction -/

/-- Repeated extraction with fuel: each successful extraction shrinks the
heap by one element, so fuel `l.length` performs every extraction. -/
def extractAllF (comp : K → K → Bool) (d : Nat) :
    Nat → List (HNode K D) → List (HNode K D)
  | 0, _ => []
  | f+1, l =>
    match extract comp d l with
    | none => []
    | some (x, rest) => x :: extractAllF comp d f rest

/-- Extract every element in turn (`n` extractions empty the heap). -/
def extractAll (comp : K → K → Bool) (d : Nat) (l : List (HNode K D)) :
    List (HNode K D) :=
  extractAllF comp d l.length l

theorem extractAllF_fuel_irrel (comp : K → K → Bool) (d : Nat) :
    ∀ (f g : Nat) (l : List (HNode K D)), l.length ≤ f → l.length ≤ g →
      extractAllF comp d f l = extractAllF comp d g l := by
  intro f
  induction f with
  | zero =>
    intro g l hf hg
    have hl : l = [] := List.length_eq_zero.mp (by omega)
    subst hl
    cases g with
    | zero => rfl
    | succ g => simp [extractAllF, extract]
  | succ f ih =>
    intro g l hf hg
    cases g with
    | zero =>
      have hl : l = [] := List.length_eq_zero.mp (by omega)
      subst hl
      simp [extractAllF, extract]
    | succ g =>
      simp only [extractAllF]
      cases heq : extract comp d l with
      | none => rfl
      | some pr =>
        obtain ⟨x, rest⟩ := pr
        have hlen := length_extract comp d heq
        show x :: extractAllF comp d f rest = x :: extractAllF comp d g rest
        rw [ih g rest (by omega) (by omega)]

theorem extractAll_eq_step (comp : K → K → Bool) (d : Nat)
    (l : List (HNode K D)) :
    extractAll comp d l =
      match extract comp d l with
      | none => []
      | some (x, rest) => x :: extractAll comp d rest := by
  unfold extractAll
  cases hl : l.length with
  | zero =>
    have hnil : l = [] := List.length_eq_zero.mp hl
    subst hnil
    simp [extractAllF, extract]
  | succ n =>
    simp only [extractAllF]
    cases heq : extract comp d l with
    | none => rfl
    | some pr =>
      obtain ⟨x, rest⟩ := pr
      have hlen := length_extract comp d heq
      show x :: extractAllF comp d n rest = x :: extractAllF comp d rest.length rest
      rw [extractAllF_fuel_irrel comp d n rest.length rest (by omega)
        (by omega)]

theorem extractAll_perm (comp : K → K → Bool) (d : Nat) :
    ∀ (n : Nat) (l : List (HNode K D)), l.length ≤ n →
      (extractAll comp d l).Perm l := by
  intro n
  induction n with
  | zero =>
    intro l hn
    have hl : l = [] := List.length_eq_zero.mp (by omega)
    subst hl
    rw [extractAll_eq_step]
    simp [extract]
  | succ n ih =>
    intro l hn
    rw [extractAll_eq_step]
    split
    · rename_i heq
      have := (extract_eq_none_iff comp d l).mp heq
      have hl : l = [] := List.length_eq_zero.mp this
      subst hl
      exact List.Perm.refl []
    · rename_i x rest heq
      have hlen := length_extract comp d heq
      have h1 : (extractAll comp d rest).Perm rest := ih rest (by omega)
      have h2 := extract_perm comp d heq
      exact (h1.cons x).trans h2.2

theorem length_extractAll (comp : K → K → Bool) (d : Nat)
    (l : List (HNode K D)) : (extractAll comp d l).length = l.length :=
  (extractAll_perm comp d l.length l (by omega)).length_eq

/-- Successive extractions from a valid heap come out in dominance order. -/
theorem extractAll_pairwise (comp : K → K → Bool) (d : Nat) (hd : 0 < d)
    (Htot : ∀ a b : K, comp a b = true ∨ comp b a = true)
    (Htrans : ∀ a b c : K, comp a b = true → comp b c = true →
      comp a c = true) :
    ∀ (n : Nat) (l : List (HNode K D)), l.length ≤ n →
      heapInv comp d l →
      List.Pairwise (fun a b : HNode K D => comp a.key b.key = true)
        (extractAll comp d l) := by
  intro n
  induction n with
  | zero =>
    intro l hn hinv
    have hl : l = [] := List.length_eq_zero.mp (by omega)
    subst hl
    rw [extractAll_eq_step]
    simp [extract]
  | succ n ih =>
    intro l hn hinv
    rw [extractAll_eq_step]
    split
    · exact List.Pairwise.nil
    · rename_i x rest heq
      have hlen := length_extract comp d heq
      have hrinv := extract_heapInv comp d hd Htot Htrans hinv heq
      have hx := extract_perm comp d heq
      refine List.Pairwise.cons ?_ (ih rest (by omega) hrinv)
      intro y hy
      have hyr : y ∈ rest := (extractAll_perm comp d rest.length rest
        (by omega)).mem_iff.mp hy
      have hyl : y ∈ l := hx.2.mem_iff.mp (List.mem_cons_of_mem x hyr)
      obtain ⟨k, hk, hkeq⟩ := List.mem_iff_getElem.mp hyl
      have hdom := heapInv_root_dominates comp d Htot Htrans hinv k hk
      simp only [keyAt] at hdom
      rw [nodeAt_eq_getElem l k hk, hkeq] at hdom
      rw [hx.1]
      exact hdom

/-! ## The two comparators installed by `DHeap.__new__` are total and
transitive -/

theorem compOf_total {K : Type} [LinearOrder K] (hp : Hprop) :
    ∀ a b : K, compOf hp a b = true ∨ compOf hp b a = true := by
  cases hp with
  | min =>
    intro a b
    simp only [compOf, decide_eq_true_eq]
    exact le_total a b
  | max =>
    intro a b
    simp only [compOf, ge_iff_le, decide_eq_true_eq]
    exact le_total b a

theorem compOf_trans {K : Type} [LinearOrder K] (hp : Hprop) :
    ∀ a b c : K, compOf hp a b = true → compOf hp b c = true →
      compOf hp a c = true := by
  cases hp with
  | min =>
    intro a b c
    simp only [compOf, decide_eq_true_eq]
    exact le_trans
  | max =>
    intro a b c
    simp only [compOf, ge_iff_le, decide_eq_true_eq]
    intro h1 h2
    exact le_trans h2 h1

/-! ## Sequences of operations on a `DHeap` -/

/-- An operation from `DHeap`'s public mutating interface. -/
inductive HeapOp (K D : Type) where
  | ins (k : K) (v : D) : HeapOp K D
  | ext : HeapOp K D
deriving Repr, DecidableEq

/-- Apply one operation.  `extract` on an empty heap raises in the source
before touching the store, so the heap is left unchanged. -/
def applyOp (comp : K → K → Bool) (d : Nat) (l : List (HNode K D)) :
    HeapOp K D → List (HNode K D)
  | .ins k v => insert comp d l k v
  | .ext =>
    match extract comp d l with
    | none => l
    | some (_, rest) => rest

/-- Run a sequence of heap operations left to right. -/
def runOps (comp : K → K → Bool) (d : Nat) (l : List (HNode K D))
    (ops : List (HeapOp K D)) : List (HNode K D) :=
  ops.foldl (applyOp comp d) l

/-- Insert a list of `(key, data)` pairs in order. -/
def insertList (comp : K → K → Bool) (d : Nat) (l : List (HNode K D))
    (kvs : List (K × D)) : List (HNode K D) :=
  kvs.foldl (fun h kv => insert comp d h kv.1 kv.2) l

theorem applyOp_heapInv (comp : K → K → Bool) (d : Nat) (hd : 0 < d)
    (Htot : ∀ a b : K, comp a b = true ∨ comp b a = true)
    (Htrans : ∀ a b c : K, comp a b = true → comp b c = true →
      comp a c = true)
    (l : List (HNode K D)) (op : HeapOp K D) (hinv : heapInv comp d l) :
    heapInv comp d (applyOp comp d l op) := by
  cases op with
  | ins k v => exact insert_heapInv comp d Htot Htrans l k v hinv
  | ext =>
    simp only [applyOp]
    cases heq : extract comp d l with
    | none => exact hinv
    | some pr =>
      obtain ⟨x, rest⟩ := pr
      exact extract_heapInv comp d hd Htot Htrans hinv heq

theorem runOps_heapInv (comp : K → K → Bool) (d : Nat) (hd : 0 < d)
    (Htot : ∀ a b : K, comp a b = true ∨ comp b a = true)
    (Htrans : ∀ a b c : K, comp a b = true → comp b c = true →
      comp a c = true) :
    ∀ (ops : List (HeapOp K D)) (l : List (HNode K D)), heapInv comp d l →
      heapInv comp d (runOps comp d l ops) := by
  intro ops
  induction ops with
  | nil => intro l hinv; exact hinv
  | cons op ops ih =>
    intro l hinv
    exact ih (applyOp comp d l op)
      (applyOp_heapInv comp d hd Htot Htrans l op hinv)

theorem insertList_heapInv (comp : K → K → Bool) (d : Nat)
    (Htot : ∀ a b : K, comp a b = true ∨ comp b a = true)
    (Htrans : ∀ a b c : K, comp a b = true → comp b c = true →
      comp a c = true) :
    ∀ (kvs : List (K × D)) (l : List (HNode K D)), heapInv comp d l →
      heapInv comp d (insertList comp d l kvs) := by
  intro kvs
  induction kvs with
  | nil => intro l hinv; exact hinv
  | cons kv kvs ih =>
    intro l hinv
    exact ih _ (insert_heapInv comp d Htot Htrans l kv.1 kv.2 hinv)

theorem length_insertList (comp : K → K → Bool) (d : Nat) :
    ∀ (kvs : List (K × D)) (l : List (HNode K D)),
      (insertList comp d l kvs).length = l.length + kvs.length := by
  intro kvs
  induction kvs with
  | nil => intro l; simp [insertList]
  | cons kv kvs ih =>
    intro l
    show (insertList comp d (insert comp d l kv.1 kv.2) kvs).length = _
    rw [ih, length_insert]
    simp
    omega

theorem heapInv_nil (comp : K → K → Bool) (d : Nat) :
    heapInv comp d ([] : List (HNode K D)) := by
  intro j hj
  simp at hj

/-! ## Claim theorems for the heap -/

/-- C1: for every `DHeap` (any arity `d ≥ 2`, heap property `min` or `max`,
any initial elements) and every sequence of insert and extract operations
applied to it, the heap invariant holds afterwards: every non-root occupied
index `i` with parent `p = (i-1)//d` satisfies `comparator(key p, key i)`.
(Every prefix of a sequence is itself a sequence, so the invariant holds
after each operation.) -/
theorem dsa_c1_heap_invariant_all_sequences {K D : Type} [LinearOrder K]
    [Inhabited K] [Inhabited D] (hp : Hprop) (d : Nat) (hd : 2 ≤ d)
    (elems : List (HNode K D)) (ops : List (HeapOp K D)) :
    heapInv (compOf hp) d
      (runOps (compOf hp) d (dheapBuild (compOf hp) d elems) ops) := by
  apply runOps_heapInv _ _ (by omega) (compOf_total hp) (compOf_trans hp)
  exact dheapBuild_heapInv _ _ (by omega) (compOf_total hp) (compOf_trans hp)
    elems

theorem dsa_c1_witness :
    2 ≤ 2 ∧ heapInv (compOf Hprop.min) 2
      (runOps (compOf Hprop.min) 2
        (dheapBuild (compOf Hprop.min) 2
          [(⟨4, 0⟩ : HNode Nat Nat), ⟨1, 1⟩, ⟨3, 2⟩])
        [.ins 0 3, .ext, .ins 2 4, .ext]) :=
  ⟨by decide,
    dsa_c1_heap_invariant_all_sequences Hprop.min 2 (by decide)
      [⟨4, 0⟩, ⟨1, 1⟩, ⟨3, 2⟩] [.ins 0 3, .ext, .ins 2 4, .ext]⟩

/-- C2: for every list of keys, inserting them all into an initially empty
`DHeap` and then extracting until empty yields the full key sequence (one
extraction per insert), sorted ascending for the `min` heap property and
descending for `max`. -/
theorem dsa_c2_extraction_order {K D : Type} [LinearOrder K] [Inhabited K]
    [Inhabited D] (hp : Hprop) (d : Nat) (hd : 2 ≤ d)
    (kvs : List (K × D)) :
    (extractAll (compOf hp) d (insertList (compOf hp) d [] kvs)).length
        = kvs.length ∧
    (hp = Hprop.min → List.Sorted (· ≤ ·)
      ((extractAll (compOf hp) d
        (insertList (compOf hp) d [] kvs)).map HNode.key)) ∧
    (hp = Hprop.max → List.Sorted (· ≥ ·)
      ((extractAll (compOf hp) d
        (insertList (compOf hp) d [] kvs)).map HNode.key)) := by
  have hinv : heapInv (compOf hp) d (insertList (compOf hp) d [] kvs) :=
    insertList_heapInv (compOf hp) d (compOf_total hp) (compOf_trans hp)
      kvs [] (heapInv_nil _ _)
  have hpw := extractAll_pairwise (compOf hp) d (by omega) (compOf_total hp)
    (compOf_trans hp) (insertList (compOf hp) d [] kvs).length _
    (by omega) hinv
  refine ⟨?_, ?_, ?_⟩
  · rw [length_extractAll, length_insertList]
    simp
  · intro hmin
    subst hmin
    rw [List.Sorted, List.pairwise_map]
    refine hpw.imp ?_
    intro a b h
    simpa [compOf] using h
  · intro hmax
    subst hmax
    rw [List.Sorted, List.pairwise_map]
    refine hpw.imp ?_
    intro a b h
    simpa [compOf] using h

theorem dsa_c2_witness :
    2 ≤ 3 ∧
    ((extractAll (compOf Hprop.min) 3
        (insertList (compOf Hprop.min) 3 []
          [(5, 0), (2, 1), (9, 2), (2, 3)])).length = 4 ∧
      (Hprop.min = Hprop.min → List.Sorted (· ≤ ·)
        ((extractAll (compOf Hprop.min) 3
          (insertList (compOf Hprop.min) 3 ([] : List (HNode Nat Nat))
            [(5, 0), (2, 1), (9, 2), (2, 3)])).map HNode.key)) ∧
      (Hprop.min = Hprop.max → List.Sorted (· ≥ ·)
        ((extractAll (compOf Hprop.min) 3
          (insertList (compOf Hprop.min) 3 []
            [(5, 0), (2, 1), (9, 2), (2, 3)])).map HNode.key))) :=
  ⟨by decide,
    dsa_c2_extraction_order Hprop.min 3 (by decide)
      [(5, 0), (2, 1), (9, 2), (2, 3)]⟩

/-- C5 counterexample: in the min-heap list `[5, 3, 3]` (arity 2, node `0`),
both children dominate the parent and tie with each other, yet
`_heapify`'s scan selects index `2`, not the lowest index `1`: the comparator
is non-strict, so a later child that ties with the current target replaces
it. -/
theorem dsa_c5_counterexample :
    compOf Hprop.min
        (keyAt [(⟨5, 0⟩ : HNode Nat Nat), ⟨3, 1⟩, ⟨3, 2⟩] 1)
        (keyAt [(⟨5, 0⟩ : HNode Nat Nat), ⟨3, 1⟩, ⟨3, 2⟩] 0) = true ∧
    compOf Hprop.min
        (keyAt [(⟨5, 0⟩ : HNode Nat Nat), ⟨3, 1⟩, ⟨3, 2⟩] 2)
        (keyAt [(⟨5, 0⟩ : HNode Nat Nat), ⟨3, 1⟩, ⟨3, 2⟩] 0) = true ∧
    keyAt [(⟨5, 0⟩ : HNode Nat Nat), ⟨3, 1⟩, ⟨3, 2⟩] 1
      = keyAt [(⟨5, 0⟩ : HNode Nat Nat), ⟨3, 1⟩, ⟨3, 2⟩] 2 ∧
    hTarget (compOf Hprop.min) 2 [(⟨5, 0⟩ : HNode Nat Nat), ⟨3, 1⟩, ⟨3, 2⟩] 0
      = 2 ∧
    hTarget (compOf Hprop.min) 2 [(⟨5, 0⟩ : HNode Nat Nat), ⟨3, 1⟩, ⟨3, 2⟩] 0
      ≠ 1 := by
  decide

/-- C5 amended: during the sift-down step, at each level the scan selects
the node itself or an occupied child; the selection dominates the node and
every occupied child (it is the most dominating); and every occupied child
with a larger index than the selection fails to dominate it — so among
children that tie for most dominating, the highest-index (last-scanned)
child is selected, not the lowest. -/
theorem dsa_c5_amended_tie_highest_index (comp : K → K → Bool) (d : Nat)
    (Htot : ∀ a b : K, comp a b = true ∨ comp b a = true)
    (Htrans : ∀ a b c : K, comp a b = true → comp b c = true →
      comp a c = true)
    (l : List (HNode K D)) (i : Nat) :
    (hTarget comp d l i = i ∨
      (d*i + 1 ≤ hTarget comp d l i ∧ hTarget comp d l i ≤ d*i + d ∧
        hTarget comp d l i < l.length)) ∧
    comp (keyAt l (hTarget comp d l i)) (keyAt l i) = true ∧
    (∀ j, d*i + 1 ≤ j → j ≤ d*i + d → j < l.length →
      comp (keyAt l (hTarget comp d l i)) (keyAt l j) = true) ∧
    (∀ j, d*i + 1 ≤ j → j ≤ d*i + d → j < l.length →
      hTarget comp d l i < j →
      comp (keyAt l j) (keyAt l (hTarget comp d l i)) = false) := by
  obtain ⟨H1, H2, H3⟩ := hTarget_spec comp d Htot Htrans l i
  refine ⟨?_, H1, H2, H3⟩
  rcases hTarget_cases comp d l i with hc | hc
  · exact Or.inl hc
  · exact Or.inr ⟨hc.1, by omega, hc.2.2⟩

theorem dsa_c5_amended_witness :
    (hTarget (compOf Hprop.min) 2 [(⟨5, 0⟩ : HNode Nat Nat), ⟨3, 1⟩, ⟨3, 2⟩] 0
        = 0 ∨
      (2*0 + 1 ≤ hTarget (compOf Hprop.min) 2
          [(⟨5, 0⟩ : HNode Nat Nat), ⟨3, 1⟩, ⟨3, 2⟩] 0 ∧
        hTarget (compOf Hprop.min) 2
          [(⟨5, 0⟩ : HNode Nat Nat), ⟨3, 1⟩, ⟨3, 2⟩] 0 ≤ 2*0 + 2 ∧
        hTarget (compOf Hprop.min) 2
          [(⟨5, 0⟩ : HNode Nat Nat), ⟨3, 1⟩, ⟨3, 2⟩] 0
          < ([(⟨5, 0⟩ : HNode Nat Nat), ⟨3, 1⟩, ⟨3, 2⟩]).length)) ∧
    compOf Hprop.min
      (keyAt [(⟨5, 0⟩ : HNode Nat Nat), ⟨3, 1⟩, ⟨3, 2⟩]
        (hTarget (compOf Hprop.min) 2
          [(⟨5, 0⟩ : HNode Nat Nat), ⟨3, 1⟩, ⟨3, 2⟩] 0))
      (keyAt [(⟨5, 0⟩ : HNode Nat Nat), ⟨3, 1⟩, ⟨3, 2⟩] 0) = true ∧
    (∀ j, 2*0 + 1 ≤ j → j ≤ 2*0 + 2 →
      j < ([(⟨5, 0⟩ : HNode Nat Nat), ⟨3, 1⟩, ⟨3, 2⟩]).length →
      compOf Hprop.min
        (keyAt [(⟨5, 0⟩ : HNode Nat Nat), ⟨3, 1⟩, ⟨3, 2⟩]
          (hTarget (compOf Hprop.min) 2
            [(⟨5, 0⟩ : HNode Nat Nat), ⟨3, 1⟩, ⟨3, 2⟩] 0))
        (keyAt [(⟨5, 0⟩ : HNode Nat Nat), ⟨3, 1⟩, ⟨3, 2⟩] j) = true) ∧
    (∀ j, 2*0 + 1 ≤ j → j ≤ 2*0 + 2 →
      j < ([(⟨5, 0⟩ : HNode Nat Nat), ⟨3, 1⟩, ⟨3, 2⟩]).length →
      hTarget (compOf Hprop.min) 2
        [(⟨5, 0⟩ : HNode Nat Nat), ⟨3, 1⟩, ⟨3, 2⟩] 0 < j →
      compOf Hprop.min
        (keyAt [(⟨5, 0⟩ : HNode Nat Nat), ⟨3, 1⟩, ⟨3, 2⟩] j)
        (keyAt [(⟨5, 0⟩ : HNode Nat Nat), ⟨3, 1⟩, ⟨3, 2⟩]
          (hTarget (compOf Hprop.min) 2
            [(⟨5, 0⟩ : HNode Nat Nat), ⟨3, 1⟩, ⟨3, 2⟩] 0)) = false) :=
  dsa_c5_amended_tie_highest_index (compOf Hprop.min) 2
    (compOf_total Hprop.min) (compOf_trans Hprop.min)
    [⟨5, 0⟩, ⟨3, 1⟩, ⟨3, 2⟩] 0

theorem runOps_ext_empties (comp : K → K → Bool) (d : Nat) :
    ∀ (k : Nat) (l : List (HNode K D)), l.length = k →
      (runOps comp d l (List.replicate k HeapOp.ext)).length = 0 := by
  intro k
  induction k with
  | zero =>
    intro l hl
    simpa [runOps] using hl
  | succ k ih =>
    intro l hl
    rw [List.replicate_succ]
    show (runOps comp d (applyOp comp d l .ext) (List.replicate k .ext)).length = 0
    cases heq : extract comp d l with
    | none =>
      rw [extract_eq_none_iff] at heq
      omega
    | some pr =>
      obtain ⟨x, rest⟩ := pr
      have hlen := length_extract comp d heq
      have : applyOp comp d l .ext = rest := by
        simp [applyOp, heq]
      rw [this]
      exact ih rest (by omega)

/-- C6: `extract` and the priority queue's `peek` fail on an empty heap
(modelled as `none` for `raise IndexError`) and return no node; and for
every `k`, inserting `k` elements into a freshly built empty heap and then
extracting `k` times leaves `is_empty` true again. -/
theorem dsa_c6_empty_heap_errors {K D : Type} [LinearOrder K] [Inhabited K]
    [Inhabited D] (hp : Hprop) (d : Nat) (kvs : List (K × D)) :
    extract (compOf hp) d ([] : List (HNode K D)) = none ∧
    pqPeek ([] : List (HNode K D)) = none ∧
    is_empty (runOps (compOf hp) d
      (insertList (compOf hp) d [] kvs)
      (List.replicate kvs.length HeapOp.ext)) = true := by
  refine ⟨by simp [extract], by simp [pqPeek, is_empty], ?_⟩
  have hlen : (insertList (compOf hp) d ([] : List (HNode K D)) kvs).length
      = kvs.length := by
    rw [length_insertList]
    simp
  have h0 := runOps_ext_empties (compOf hp) d kvs.length _ hlen
  simp [is_empty, h0]

/-- C7: the bulk-build constructor (`DHeap.__new__` calling `_build`, which
sifts down from index `(last+1)//d` to the root) produces, for every list of
initial `(key, data)` pairs, every arity `d ≥ 2` and both heap properties, a
heap satisfying the parent-dominates-child invariant at every occupied
index. -/
theorem dsa_c7_build_establishes_invariant {K D : Type} [LinearOrder K]
    [Inhabited K] [Inhabited D] (hp : Hprop) (d : Nat) (hd : 2 ≤ d)
    (elems : List (HNode K D)) :
    heapInv (compOf hp) d (dheapBuild (compOf hp) d elems) :=
  dheapBuild_heapInv (compOf hp) d (by omega) (compOf_total hp)
    (compOf_trans hp) elems

theorem dsa_c7_witness :
    2 ≤ 2 ∧ heapInv (compOf Hprop.max) 2
      (dheapBuild (compOf Hprop.max) 2
        [(⟨1, 0⟩ : HNode Nat Nat), ⟨7, 1⟩, ⟨7, 2⟩, ⟨2, 3⟩, ⟨9, 4⟩]) :=
  ⟨by decide,
    dsa_c7_build_establishes_invariant Hprop.max 2 (by decide)
      [⟨1, 0⟩, ⟨7, 1⟩, ⟨7, 2⟩, ⟨2, 3⟩, ⟨9, 4⟩]⟩

/-- C10: for every heap state, `insert` is total (the embedding is a total
function, as the source raises nothing) and changes the stored multiset of
`(key, data)` nodes exactly by adding the new node; and whenever `extract`
succeeds on a (non-empty) heap it returns the root node and changes the
multiset exactly by removing it (swaps move nodes but never create, lose or
alter them).  The insert conjunct is unconditional: it covers the empty
heap too. -/
theorem dsa_c10_multiset_discipline (comp : K → K → Bool) (d : Nat)
    (l : List (HNode K D)) (k : K) (v : D) :
    (insert comp d l k v).Perm (⟨k, v⟩ :: l) ∧
    (∀ (x : HNode K D) (rest : List (HNode K D)),
      extract comp d l = some (x, rest) →
      x = nodeAt l 0 ∧ (x :: rest).Perm l) :=
  ⟨insert_perm comp d l k v,
    fun _ _ hx => ⟨(extract_perm comp d hx).1, (extract_perm comp d hx).2⟩⟩

theorem dsa_c10_witness :
    ((insert (compOf Hprop.min) 2 [(⟨3, 5⟩ : HNode Nat Nat), ⟨4, 6⟩] 1 7).Perm
        (⟨1, 7⟩ :: [⟨3, 5⟩, ⟨4, 6⟩]) ∧
      (∀ (x : HNode Nat Nat) (rest : List (HNode Nat Nat)),
        extract (compOf Hprop.min) 2 [(⟨3, 5⟩ : HNode Nat Nat), ⟨4, 6⟩]
            = some (x, rest) →
        x = nodeAt [(⟨3, 5⟩ : HNode Nat Nat), ⟨4, 6⟩] 0 ∧
          (x :: rest).Perm [⟨3, 5⟩, ⟨4, 6⟩])) ∧
    ((insert (compOf Hprop.min) 2 ([] : List (HNode Nat Nat)) 1 7).Perm
        (⟨1, 7⟩ :: []) ∧
      (∀ (x : HNode Nat Nat) (rest : List (HNode Nat Nat)),
        extract (compOf Hprop.min) 2 ([] : List (HNode Nat Nat))
            = some (x, rest) →
        x = nodeAt ([] : List (HNode Nat Nat)) 0 ∧ (x :: rest).Perm [])) :=
  ⟨dsa_c10_multiset_discipline (compOf Hprop.min) 2 [⟨3, 5⟩, ⟨4, 6⟩] 1 7,
    dsa_c10_multiset_discipline (compOf Hprop.min) 2 [] 1 7⟩

/-! ## Python dicts as association lists

`graphs/algorithms.py` keeps `visited`, `dist`, `pred` and the MST
bookkeeping in Python dicts.  A dict preserves insertion order; updating an
existing key keeps its position, a new key is appended. -/

/-- `m[k]`, `none` for a `KeyError`. -/
def dictGet {α β : Type} [DecidableEq α] : List (α × β) → α → Option β
  | [], _ => none
  | (k, w) :: rest, x => if x = k then some w else dictGet rest x

/-- `m[k] = v`: update in place or append. -/
def dictSet {α β : Type} [DecidableEq α] : List (α × β) → α → β →
    List (α × β)
  | [], x, v => [(x, v)]
  | (k, w) :: rest, x, v =>
    if x = k then (k, v) :: rest else (k, w) :: dictSet rest x v

theorem dictGet_dictSet_self {α β : Type} [DecidableEq α] :
    ∀ (m : List (α × β)) (k : α) (v : β), dictGet (dictSet m k v) k = some v := by
  intro m
  induction m with
  | nil => intro k v; simp [dictGet, dictSet]
  | cons kw rest ih =>
    intro k v
    obtain ⟨k', w⟩ := kw
    by_cases hk : k = k'
    · subst hk
      simp [dictGet, dictSet]
    · simp [dictGet, dictSet, hk, ih]

theorem dictGet_dictSet_ne {α β : Type} [DecidableEq α] :
    ∀ (m : List (α × β)) (k x : α) (v : β), x ≠ k →
      dictGet (dictSet m k v) x = dictGet m x := by
  intro m
  induction m with
  | nil => intro k x v hx; simp [dictGet, dictSet, hx]
  | cons kw rest ih =>
    intro k x v hx
    obtain ⟨k', w⟩ := kw
    by_cases hk : k = k'
    · subst hk
      simp [dictGet, dictSet, hx]
    · by_cases hxk : x = k'
      · subst hxk
        simp [dictGet, dictSet, hk]
      · simp [dictGet, dictSet, hk, hxk, ih _ _ _ hx]

/-- Remove the (single) entry of a key: only used in proofs, to count
entries. -/
def dictErase {α β : Type} [DecidableEq α] : List (α × β) → α →
    List (α × β)
  | [], _ => []
  | (k, w) :: rest, x => if x = k then rest else (k, w) :: dictErase rest x

theorem length_dictErase_of_mem {α β : Type} [DecidableEq α] :
    ∀ (m : List (α × β)) (k : α), (dictGet m k).isSome →
      (dictErase m k).length + 1 = m.length := by
  intro m
  induction m with
  | nil => intro k h; simp [dictGet] at h
  | cons kw rest ih =>
    intro k h
    obtain ⟨k', w⟩ := kw
    by_cases hk : k = k'
    · subst hk
      simp [dictErase]
    · simp [dictGet, hk] at h
      simp [dictErase, hk, ih k h]

theorem dictGet_dictErase_ne {α β : Type} [DecidableEq α] :
    ∀ (m : List (α × β)) (k x : α), x ≠ k →
      dictGet (dictErase m k) x = dictGet m x := by
  intro m
  induction m with
  | nil => intro k x hx; simp [dictErase]
  | cons kw rest ih =>
    intro k x hx
    obtain ⟨k', w⟩ := kw
    by_cases hk : k = k'
    · subst hk
      simp [dictErase, dictGet, hx]
    · by_cases hxk : x = k'
      · subst hxk
        simp [dictErase, dictGet, hk]
      · simp [dictErase, dictGet, hk, hxk, ih _ _ hx]

/-- A duplicate-free list of keys that are all present needs at least that
many entries. -/
theorem length_le_of_keys_present {α β : Type} [DecidableEq α] :
    ∀ (vs : List α) (m : List (α × β)), vs.Nodup →
      (∀ v ∈ vs, (dictGet m v).isSome) → vs.length ≤ m.length := by
  intro vs
  induction vs with
  | nil => intro m _ _; simp
  | cons v vs ih =>
    intro m hnd hall
    have hv := hall v (by simp)
    have h1 : (dictErase m v).length + 1 = m.length :=
      length_dictErase_of_mem m v hv
    have h2 : vs.length ≤ (dictErase m v).length := by
      apply ih _ (by simp at hnd; exact hnd.2)
      intro x hx
      have hxv : x ≠ v := by
        intro hc
        subst hc
        simp at hnd
        exact hnd.1 hx
      rw [dictGet_dictErase_ne m v x hxv]
      exact hall x (by simp [hx])
    simp
    omega

/-! ## The graph collaborator and Dijkstra (`graphs/algorithms.py`) -/

/-- Modelled from the spec: the adjacency-list `Graph` container
(`graphs/graph.py` is not under `src/`).  Per spec §3/§6 it provides a
vertex set with string identifiers (unique, iteration order deterministic)
and directed edge weights keyed by ordered vertex pair (the source builds
the key string `u + '_' + v`).  Weights are numeric; the drivers use
integers. -/
structure Graph where
  vertices : List String
  edge_weights : List ((String × String) × Int)
deriving Repr, DecidableEq

/-- `edge_str in graph.edge_weights` / `graph.edge_weights[edge_str].value`. -/
def edgeWeight (g : Graph) (u v : String) : Option Int :=
  dictGet g.edge_weights (u, v)

/-- Distances: Python `float('inf')` together with integer arithmetic is
modelled by `WithTop Int` (`⊤` is the infinity that every relaxation
improves on). -/
abbrev EDist := WithTop Int

instance : Inhabited EDist := ⟨(0 : Int)⟩

/-- The priority queue used by both algorithms: `PriorityQueue(
implementation='binary_heap')`, a `BinaryHeap` (`DHeap` with `d = 2`) whose
comparator is the default `lambda u, v: u < v` on priorities (distances in
Dijkstra). -/
def pqComp : EDist → EDist → Bool :=
  fun a b => decide (a < b)

/-- The same default comparator at integer priorities (edge weights, as
pushed by Prim). -/
def pqCompInt : Int → Int → Bool :=
  fun a b => decide (a < b)

/-- The error outcomes of `_dijkstra_adjacency_list`: `IndexError` from
`pq.pop()` on an empty heap, `KeyError` from a dict lookup. -/
inductive DijErr where
  | emptyHeap : DijErr
  | keyError : DijErr
deriving Repr, DecidableEq

/-- The mutable state of `_dijkstra_adjacency_list`. -/
structure DijState where
  visited : List (String × Bool)
  dist : List (String × EDist)
  pred : List (String × Option String)
  pq : List (HNode EDist String)
deriving Repr, DecidableEq

/-- The initialisation of `_dijkstra_adjacency_list`: `visited`/`pred` for
every vertex, `dist[v] = inf` for `v != start`, then `dist[start] = 0`, then
every `dist` key pushed with its distance as priority. -/
def dijkstraVisited0 (g : Graph) : List (String × Bool) :=
  g.vertices.foldl (fun m v => dictSet m v false) []

def dijkstraPred0 (g : Graph) : List (String × Option String) :=
  g.vertices.foldl (fun m v => dictSet m v (none : Option String)) []

def dijkstraDist0 (g : Graph) (start : String) : List (String × EDist) :=
  dictSet
    (g.vertices.foldl
      (fun m v => if v ≠ start then dictSet m v (⊤ : EDist) else m) [])
    start ((0 : Int) : EDist)

def dijkstraPq0 (g : Graph) (start : String) : List (HNode EDist String) :=
  (dijkstraDist0 g start).foldl (fun h kv => insert pqComp 2 h kv.2 kv.1) []

def dijkstraInit (g : Graph) (start : String) : DijState :=
  ⟨dijkstraVisited0 g, dijkstraDist0 g start, dijkstraPred0 g,
    dijkstraPq0 g start⟩

/-- The body of `for v in graph.vertices` inside the main loop: relax the
edge `u → v` when it exists, has weight `> 0`, `v` is unvisited and the new
distance improves; on success also push `v` at its new distance.  Dict
lookups that would raise `KeyError` produce `.error .keyError`. -/
def relaxStep (g : Graph) (u : String) (st : DijState) (v : String) :
    Except DijErr DijState :=
  match edgeWeight g u v with
  | none => .ok st
  | some w =>
    if w > 0 then
      match dictGet st.visited v with
      | none => .error .keyError
      | some visv =>
        if visv = false then
          match dictGet st.dist v, dictGet st.dist u with
          | some dv, some du =>
            if dv > du + (w : EDist) then
              .ok { st with
                dist := dictSet st.dist v (du + (w : EDist)),
                pred := dictSet st.pred v (some u),
                pq := insert pqComp 2 st.pq (du + (w : EDist)) v }
            else .ok st
          | _, _ => .error .keyError
        else .ok st
    else .ok st

/-- One iteration of `for _ in range(V)`: pop `u`, mark it visited, relax
all candidate edges out of `u`. -/
def dijkstraIter (g : Graph) (st : DijState) : Except DijErr DijState :=
  match extract pqComp 2 st.pq with
  | none => .error .emptyHeap
  | some (node, pq') =>
    let u := node.data
    g.vertices.foldlM (relaxStep g u)
      { st with pq := pq', visited := dictSet st.visited u true }

/-- `for _ in range(V)` as recursion on the remaining iteration count. -/
def dijkstraLoop (g : Graph) : Nat → DijState → Except DijErr DijState
  | 0, st => .ok st
  | r+1, st => do
    let st' ← dijkstraIter g st
    dijkstraLoop g r st'

/-- The two shapes of `_dijkstra_adjacency_list`'s return value:
`(dist, pred)` without a target, `(dist[target], pred)` with one. -/
inductive DijResult where
  | all (dist : List (String × EDist)) (pred : List (String × Option String)) :
      DijResult
  | single (dt : EDist) (pred : List (String × Option String)) : DijResult
deriving Repr, DecidableEq

/-- `_dijkstra_adjacency_list(graph, start, target)`. -/
def dijkstra (g : Graph) (start target : String) :
    Except DijErr DijResult := do
  let st ← dijkstraLoop g g.vertices.length (dijkstraInit g start)
  if target ≠ "" then
    match dictGet st.dist target with
    | none => .error .keyError
    | some dt => .ok (.single dt st.pred)
  else
    .ok (.all st.dist st.pred)

deriving instance DecidableEq for Except

/-! ## Prim's minimum spanning tree (`graphs/algorithms.py`) -/

/-- `GraphEdge` of `utils/misc_util.py`, by vertex names: the edge stored
in `graph.edge_weights[u + '_' + v]` has `source` `u`, `target` `v` and a
numeric `value`. -/
structure GEdge where
  source : String
  target : String
  value : Int
deriving Repr, DecidableEq

/-- Modelled from the spec: `graph.neighbors(v)` of the adjacency-list
`Graph` (`graphs/graph.py` is not under `src/`): the vertices reachable
from `v` by one directed edge, in edge insertion order (spec §6). -/
def neighbors (g : Graph) (v : String) : List String :=
  (g.edge_weights.filter (fun kv => kv.1.1 = v)).map (fun kv => kv.1.2)

/-- The state of `_minimum_spanning_tree_prim_adjacency_list`: the priority
queue, the best-connecting-edge map `e`, and the output graph `mst` (its
vertex list — `hasattr(mst, v)` is membership — and its directed edge
weights). -/
structure PrimState where
  q : List (HNode Int String)
  e : List (String × GEdge)
  mstV : List String
  mstE : List ((String × String) × Int)
deriving Repr, DecidableEq

/-- `mst.add_vertex`: adding an already-present vertex changes nothing. -/
def mstAddVertex (vs : List String) (v : String) : List String :=
  if v ∈ vs then vs else vs ++ [v]

/-- The body of the `if not hasattr(mst, v)` branch: finalise `v` into the
output graph (with both directions of its best connecting edge, if any),
then push every neighbor at the connecting weight and update its best
edge. -/
def primVisit (g : Graph) (v : String) (st : PrimState) : PrimState :=
  let st1 : PrimState := { st with mstV := mstAddVertex st.mstV v }
  let st2 : PrimState :=
    match dictGet st1.e v with
    | none => st1
    | some edge =>
      { st1 with
        mstV := mstAddVertex st1.mstV edge.target,
        mstE := dictSet
          (dictSet st1.mstE (edge.source, edge.target) edge.value)
          (edge.target, edge.source) edge.value }
  (neighbors g v).foldl
    (fun st w =>
      match edgeWeight g v w with
      | none => st
      | some wv =>
        let st' : PrimState := { st with q := insert pqCompInt 2 st.q wv w }
        match dictGet st'.e w with
        | none => { st' with e := dictSet st'.e w ⟨v, w, wv⟩ }
        | some ew =>
          if ew.value > wv then { st' with e := dictSet st'.e w ⟨v, w, wv⟩ }
          else st')
    st2

/-- The `while not q.is_empty` loop with fuel: every push happens when a
vertex is newly finalised, so the total number of pops is bounded and
`2*|edges| + 2` iterations always suffice; `none` would mean exhausted
fuel. -/
def primLoop (g : Graph) : Nat → PrimState → Option PrimState
  | 0, _ => none
  | f+1, st =>
    if st.q.length = 0 then some st
    else
      match extract pqCompInt 2 st.q with
      | none => none
      | some (node, q') =>
        let v := node.data
        if v ∈ st.mstV then primLoop g f { st with q := q' }
        else primLoop g f (primVisit g v { st with q := q' })

/-- `_minimum_spanning_tree_prim_adjacency_list(graph)`: push the first
vertex at priority `0` and run the loop (`none` models the `StopIteration`
of `next(iter(...))` on an empty vertex set, or exhausted fuel). -/
def primMST (g : Graph) : Option PrimState :=
  match g.vertices with
  | [] => none
  | v0 :: _ =>
    primLoop g (2 * g.edge_weights.length + 2)
      ⟨insert pqCompInt 2 [] 0 v0, [], [], []⟩

/-- The three-vertex graph of C3: bidirectional `V2-V3` at weight 10 and
`V1-V2` at weight 11 (each undirected edge stored as both directed
edges). -/
def dijkstraExampleGraph : Graph :=
  ⟨["V1", "V2", "V3"],
   [(("V2", "V3"), 10), (("V3", "V2"), 10),
    (("V1", "V2"), 11), (("V2", "V1"), 11)]⟩

/-- C3: on the three-vertex graph with bidirectional edges `V2-V3 = 10` and
`V1-V2 = 11`, Dijkstra from source `V1` with no target returns the distance
map `{V1: 0, V2: 11, V3: 21}` and the predecessor map
`{V1: none, V2: V1, V3: V2}` (shown with the dicts in their Python
insertion order: `dist` gets `V2, V3` at infinity, then `V1` at `0`). -/
theorem dsa_c3_dijkstra_concrete :
    dijkstra dijkstraExampleGraph "V1" "" =
      .ok (.all
        [("V2", (11 : Int)), ("V3", (21 : Int)), ("V1", (0 : Int))]
        [("V1", none), ("V2", some "V1"), ("V3", some "V2")]) := by
  decide

/-- The two-vertex graph of C4: one undirected edge `A-B` of weight 3,
stored as both directed edges. -/
def primExampleGraph : Graph :=
  ⟨["A", "B"], [(("A", "B"), 3), (("B", "A"), 3)]⟩

/-- C4: on the two-vertex connected undirected graph with the single edge
`A-B` at weight 3, Prim's algorithm returns the MST with vertices `A, B`
and exactly the two directed edges `A→B` and `B→A`, each of weight 3 (one
edge pair, total weight 3 per undirected edge). -/
theorem dsa_c4_prim_concrete :
    (primMST primExampleGraph).map (fun st => (st.mstV, st.mstE)) =
      some (["A", "B"], [(("A", "B"), 3), (("B", "A"), 3)]) := by
  decide

/-- C8: a relaxation candidate whose edge weight is zero or negative is
rejected by the `weight > 0` guard: the inner-loop step returns the state
unchanged — in particular no `dist` or `pred` entry is updated via such an
edge, in any iteration of any run (every update the algorithm ever makes
goes through this step). -/
theorem dsa_c8_no_relaxation_via_nonpositive_edge (g : Graph)
    (u v : String) (st : DijState) (w : Int)
    (hw : edgeWeight g u v = some w) (hw0 : w ≤ 0) :
    relaxStep g u st v = .ok st := by
  unfold relaxStep
  rw [hw]
  simp only [if_neg (by omega : ¬ w > 0)]

theorem dsa_c8_witness :
    edgeWeight ⟨["x", "y"], [(("x", "y"), 0)]⟩ "x" "y" = some 0 ∧
    (0 : Int) ≤ 0 ∧
    relaxStep ⟨["x", "y"], [(("x", "y"), 0)]⟩ "x"
      (dijkstraInit ⟨["x", "y"], [(("x", "y"), 0)]⟩ "x") "y" =
      .ok (dijkstraInit ⟨["x", "y"], [(("x", "y"), 0)]⟩ "x") :=
  ⟨by decide, by decide,
    dsa_c8_no_relaxation_via_nonpositive_edge
      ⟨["x", "y"], [(("x", "y"), 0)]⟩ "x" "y"
      (dijkstraInit ⟨["x", "y"], [(("x", "y"), 0)]⟩ "x") 0
      (by decide) (by decide)⟩

/-! ## Dijkstra with an unknown target fails with a lookup error (C9) -/

theorem isSome_dictGet_dictSet {α β : Type} [DecidableEq α]
    (m : List (α × β)) (k x : α) (v : β) :
    (dictGet (dictSet m k v) x).isSome ↔ x = k ∨ (dictGet m x).isSome := by
  by_cases hx : x = k
  · subst hx
    simp [dictGet_dictSet_self]
  · rw [dictGet_dictSet_ne m k x v hx]
    simp [hx]

theorem mem_dictSet {α β : Type} [DecidableEq α] :
    ∀ (m : List (α × β)) (k : α) (v : β) (kv : α × β),
      kv ∈ dictSet m k v → kv ∈ m ∨ kv.1 = k := by
  intro m
  induction m with
  | nil =>
    intro k v kv hkv
    simp [dictSet] at hkv
    subst hkv
    exact Or.inr rfl
  | cons kw rest ih =>
    intro k v kv hkv
    obtain ⟨k', w⟩ := kw
    by_cases hk : k = k'
    · subst hk
      simp [dictSet] at hkv
      rcases hkv with h | h
      · subst h; exact Or.inr rfl
      · exact Or.inl (by simp [h])
    · simp [dictSet, hk] at hkv
      rcases hkv with h | h
      · exact Or.inl (by simp [h])
      · rcases ih k v kv h with h' | h'
        · exact Or.inl (by simp [h'])
        · exact Or.inr h'

/-- Keys present after the `dist` initialisation fold. -/
theorem dist_fold_isSome (start : String) :
    ∀ (vs : List String) (acc : List (String × EDist)) (x : String),
      (dictGet (vs.foldl
          (fun m v => if v ≠ start then dictSet m v (⊤ : EDist) else m)
          acc) x).isSome ↔
        (dictGet acc x).isSome ∨ (x ∈ vs ∧ x ≠ start) := by
  intro vs
  induction vs with
  | nil => intro acc x; simp
  | cons v vs ih =>
    intro acc x
    show (dictGet (vs.foldl _
        (if v ≠ start then dictSet acc v (⊤ : EDist) else acc)) x).isSome ↔ _
    rw [ih]
    by_cases hv : v ≠ start
    · rw [if_pos hv, isSome_dictGet_dictSet]
      constructor
      · rintro (⟨h | h⟩ | h)
        · subst h; exact Or.inr ⟨by simp, hv⟩
        · exact Or.inl h
        · exact Or.inr ⟨by simp [h.1], h.2⟩
      · rintro (h | ⟨hmem, hne⟩)
        · exact Or.inl (Or.inr h)
        · simp at hmem
          rcases hmem with h | h
          · exact Or.inl (Or.inl h)
          · exact Or.inr ⟨h, hne⟩
    · rw [if_neg hv]
      push_neg at hv
      subst hv
      constructor
      · rintro (h | h)
        · exact Or.inl h
        · exact Or.inr ⟨by simp [h.1], h.2⟩
      · rintro (h | ⟨hmem, hne⟩)
        · exact Or.inl h
        · simp at hmem
          rcases hmem with h | h
          · exact absurd h hne
          · exact Or.inr ⟨h, hne⟩

/-- Every entry key of the initialisation folds comes from the accumulator
or the vertex list. -/
theorem fold_dictSet_keys {β : Type} (f : String → β) :
    ∀ (vs : List String) (acc : List (String × β)) (kv : String × β),
      kv ∈ vs.foldl (fun m v => dictSet m v (f v)) acc →
      kv ∈ acc ∨ kv.1 ∈ vs := by
  intro vs
  induction vs with
  | nil => intro acc kv hkv; exact Or.inl hkv
  | cons v vs ih =>
    intro acc kv hkv
    rcases ih (dictSet acc v (f v)) kv hkv with h | h
    · rcases mem_dictSet acc v (f v) kv h with h' | h'
      · exact Or.inl h'
      · exact Or.inr (by simp [h'])
    · exact Or.inr (by simp [h])

theorem dist_fold_entry_keys (start : String) :
    ∀ (vs : List String) (acc : List (String × EDist)) (kv : String × EDist),
      kv ∈ vs.foldl
        (fun m v => if v ≠ start then dictSet m v (⊤ : EDist) else m) acc →
      kv ∈ acc ∨ kv.1 ∈ vs := by
  intro vs
  induction vs with
  | nil => intro acc kv hkv; exact Or.inl hkv
  | cons v vs ih =>
    intro acc kv hkv
    simp only [List.foldl_cons] at hkv
    rcases ih _ kv hkv with h | h
    · by_cases hv : v ≠ start
      · rw [if_pos hv] at h
        rcases mem_dictSet acc v ⊤ kv h with h' | h'
        · exact Or.inl h'
        · exact Or.inr (by simp [h'])
      · rw [if_neg hv] at h
        exact Or.inl h
    · exact Or.inr (by simp [h])

/-- Keys present after the unconditional `visited`/`pred` folds. -/
theorem fold_dictSet_isSome {β : Type} (f : String → β) :
    ∀ (vs : List String) (acc : List (String × β)) (x : String),
      (dictGet (vs.foldl (fun m v => dictSet m v (f v)) acc) x).isSome ↔
        (dictGet acc x).isSome ∨ x ∈ vs := by
  intro vs
  induction vs with
  | nil => intro acc x; simp
  | cons v vs ih =>
    intro acc x
    simp only [List.foldl_cons]
    rw [ih, isSome_dictGet_dictSet]
    simp only [List.mem_cons]
    tauto

/-- The loop invariant of `_dijkstra_adjacency_list`: the `dist` dict has
exactly the graph's vertices as keys, `visited` covers every vertex, and
every value in the priority queue is a vertex. -/
def dijInv (g : Graph) (st : DijState) : Prop :=
  (∀ v, (dictGet st.dist v).isSome ↔ v ∈ g.vertices) ∧
  (∀ v ∈ g.vertices, (dictGet st.visited v).isSome) ∧
  (∀ nd ∈ st.pq, nd.data ∈ g.vertices)

/-- Members of the initial priority-queue fold carry `dist` keys as data. -/
theorem pq_fold_data :
    ∀ (kvs : List (String × EDist)) (acc : List (HNode EDist String))
      (P : String → Prop),
      (∀ nd ∈ acc, P nd.data) → (∀ kv ∈ kvs, P kv.1) →
      ∀ nd ∈ kvs.foldl (fun h kv => insert pqComp 2 h kv.2 kv.1) acc,
        P nd.data := by
  intro kvs
  induction kvs with
  | nil => intro acc P hacc _ nd hnd; exact hacc nd hnd
  | cons kv kvs ih =>
    intro acc P hacc hkvs nd hnd
    simp only [List.foldl_cons] at hnd
    refine ih _ P ?_ (fun kv' h => hkvs kv' (by simp [h])) nd hnd
    intro nd' hnd'
    have hperm := insert_perm pqComp 2 acc kv.2 kv.1
    have : nd' ∈ (⟨kv.2, kv.1⟩ : HNode EDist String) :: acc :=
      hperm.mem_iff.mp hnd'
    rcases List.mem_cons.mp this with h | h
    · subst h
      exact hkvs kv (by simp)
    · exact hacc nd' h

theorem pq_fold_length :
    ∀ (kvs : List (String × EDist)) (acc : List (HNode EDist String)),
      (kvs.foldl (fun h kv => insert pqComp 2 h kv.2 kv.1) acc).length
        = acc.length + kvs.length := by
  intro kvs
  induction kvs with
  | nil => intro acc; simp
  | cons kv kvs ih =>
    intro acc
    simp only [List.foldl_cons]
    rw [ih, length_insert]
    simp only [List.length_cons]
    omega

/-- The initial state satisfies the invariant when the source is a vertex,
and its queue holds at least one entry per vertex. -/
theorem dijkstraInit_inv (g : Graph) (start : String)
    (hnd : g.vertices.Nodup) (hstart : start ∈ g.vertices) :
    dijInv g (dijkstraInit g start) ∧
      g.vertices.length ≤ (dijkstraInit g start).pq.length := by
  have hdist : ∀ x, (dictGet (dijkstraDist0 g start) x).isSome ↔
      x ∈ g.vertices := by
    intro x
    unfold dijkstraDist0
    rw [isSome_dictGet_dictSet, dist_fold_isSome]
    simp only [dictGet, Option.isSome_none, Bool.false_eq_true, false_or]
    constructor
    · rintro (h | ⟨hmem, _⟩)
      · subst h; exact hstart
      · exact hmem
    · intro hx
      by_cases hxs : x = start
      · exact Or.inl hxs
      · exact Or.inr ⟨hx, hxs⟩
  refine ⟨⟨hdist, ?_, ?_⟩, ?_⟩
  · intro v hv
    show (dictGet (dijkstraVisited0 g) v).isSome
    unfold dijkstraVisited0
    rw [fold_dictSet_isSome (fun _ => false)]
    exact Or.inr hv
  · intro nd hnd'
    show nd.data ∈ g.vertices
    replace hnd' : nd ∈ dijkstraPq0 g start := hnd'
    unfold dijkstraPq0 at hnd'
    refine pq_fold_data _ [] (fun s => s ∈ g.vertices) (by simp) ?_ nd hnd'
    intro kv hkv
    unfold dijkstraDist0 at hkv
    rcases mem_dictSet _ start ((0 : Int) : EDist) kv hkv with h | h
    · rcases dist_fold_entry_keys start g.vertices [] kv h with h' | h'
      · simp at h'
      · exact h'
    · rw [h]; exact hstart
  · show g.vertices.length ≤ (dijkstraPq0 g start).length
    unfold dijkstraPq0
    rw [pq_fold_length]
    simp only [List.length_nil, Nat.zero_add]
    apply length_le_of_keys_present g.vertices _ hnd
    intro v hv
    exact (hdist v).mpr hv

/-- One relaxation step on vertices of the graph succeeds and preserves
the invariant; the queue never shrinks inside the inner loop. -/
theorem relaxStep_ok (g : Graph) (u v : String) (st : DijState)
    (hinv : dijInv g st) (hu : u ∈ g.vertices) (hv : v ∈ g.vertices) :
    ∃ st', relaxStep g u st v = .ok st' ∧ dijInv g st' ∧
      st.pq.length ≤ st'.pq.length := by
  obtain ⟨hdist, hvis, hpq⟩ := hinv
  unfold relaxStep
  cases hew : edgeWeight g u v with
  | none => exact ⟨st, rfl, ⟨hdist, hvis, hpq⟩, le_refl _⟩
  | some w =>
    dsimp only
    by_cases hw : w > 0
    · rw [if_pos hw]
      have hvisv := hvis v hv
      cases hgv : dictGet st.visited v with
      | none => rw [hgv] at hvisv; simp at hvisv
      | some visv =>
        dsimp only
        by_cases hvf : visv = false
        · rw [if_pos hvf]
          have hdv := (hdist v).mpr hv
          have hdu := (hdist u).mpr hu
          cases hgdv : dictGet st.dist v with
          | none => rw [hgdv] at hdv; simp at hdv
          | some dv =>
            cases hgdu : dictGet st.dist u with
            | none => rw [hgdu] at hdu; simp at hdu
            | some du =>
              dsimp only
              by_cases himp : dv > du + (w : EDist)
              · rw [if_pos himp]
                refine ⟨_, rfl, ⟨?_, hvis, ?_⟩, ?_⟩
                · intro x
                  show (dictGet (dictSet st.dist v _) x).isSome ↔ _
                  rw [isSome_dictGet_dictSet]
                  constructor
                  · rintro (h | h)
                    · subst h; exact hv
                    · exact (hdist x).mp h
                  · intro hx
                    by_cases hxv : x = v
                    · exact Or.inl hxv
                    · exact Or.inr ((hdist x).mpr hx)
                · intro nd hnd
                  have hperm := insert_perm pqComp 2 st.pq (du + (w : EDist)) v
                  have hmem : nd ∈ (⟨du + (w : EDist), v⟩ :
                      HNode EDist String) :: st.pq := hperm.mem_iff.mp hnd
                  rcases List.mem_cons.mp hmem with h | h
                  · subst h; exact hv
                  · exact hpq nd h
                · show st.pq.length ≤ (insert pqComp 2 st.pq _ v).length
                  rw [length_insert]
                  omega
              · rw [if_neg himp]
                exact ⟨st, rfl, ⟨hdist, hvis, hpq⟩, le_refl _⟩
        · rw [if_neg hvf]
          exact ⟨st, rfl, ⟨hdist, hvis, hpq⟩, le_refl _⟩
    · rw [if_neg hw]
      exact ⟨st, rfl, ⟨hdist, hvis, hpq⟩, le_refl _⟩

theorem relaxAll_ok (g : Graph) (u : String) (hu : u ∈ g.vertices) :
    ∀ (vs : List String) (st : DijState), (∀ x ∈ vs, x ∈ g.vertices) →
      dijInv g st →
      ∃ st', vs.foldlM (relaxStep g u) st = .ok st' ∧ dijInv g st' ∧
        st.pq.length ≤ st'.pq.length := by
  intro vs
  induction vs with
  | nil =>
    intro st _ hinv
    exact ⟨st, rfl, hinv, le_refl _⟩
  | cons v vs ih =>
    intro st hvs hinv
    obtain ⟨st1, hstep, hinv1, hlen1⟩ :=
      relaxStep_ok g u v st hinv hu (hvs v (by simp))
    obtain ⟨st2, hfold, hinv2, hlen2⟩ :=
      ih st1 (fun x hx => hvs x (by simp [hx])) hinv1
    refine ⟨st2, ?_, hinv2, by omega⟩
    rw [List.foldlM_cons, hstep]
    simpa using hfold

/-- One main-loop iteration succeeds whenever the queue is non-empty, and
consumes at most one queue entry. -/
theorem dijkstraIter_ok (g : Graph) (st : DijState)
    (hinv : dijInv g st) (hne : 1 ≤ st.pq.length) :
    ∃ st', dijkstraIter g st = .ok st' ∧ dijInv g st' ∧
      st.pq.length - 1 ≤ st'.pq.length := by
  obtain ⟨hdist, hvis, hpq⟩ := hinv
  unfold dijkstraIter
  cases heq : extract pqComp 2 st.pq with
  | none =>
    rw [extract_eq_none_iff] at heq
    omega
  | some pr =>
    obtain ⟨node, pq'⟩ := pr
    have hperm := extract_perm pqComp 2 heq
    have hu : node.data ∈ g.vertices := by
      apply hpq
      exact hperm.2.mem_iff.mp (by simp)
    have hlen := length_extract pqComp 2 heq
    have hinv1 : dijInv g
        { st with pq := pq', visited := dictSet st.visited node.data true } := by
      refine ⟨hdist, ?_, ?_⟩
      · intro v hv
        show (dictGet (dictSet st.visited node.data true) v).isSome
        by_cases hvn : v = node.data
        · subst hvn; rw [dictGet_dictSet_self]; rfl
        · rw [dictGet_dictSet_ne _ _ _ _ hvn]
          exact hvis v hv
      · intro nd hnd
        apply hpq
        exact hperm.2.mem_iff.mp (by simp [hnd])
    obtain ⟨st', hfold, hinv', hlen'⟩ :=
      relaxAll_ok g node.data hu g.vertices _ (fun x hx => hx) hinv1
    refine ⟨st', hfold, hinv', ?_⟩
    simp only at hlen'
    omega

theorem dijkstraLoop_ok (g : Graph) :
    ∀ (r : Nat) (st : DijState), dijInv g st → r ≤ st.pq.length →
      ∃ st', dijkstraLoop g r st = .ok st' ∧ dijInv g st' := by
  intro r
  induction r with
  | zero =>
    intro st hinv _
    exact ⟨st, rfl, hinv⟩
  | succ r ih =>
    intro st hinv hr
    obtain ⟨st1, hiter, hinv1, hlen1⟩ := dijkstraIter_ok g st hinv (by omega)
    obtain ⟨st', hloop, hinv'⟩ := ih st1 hinv1 (by omega)
    refine ⟨st', ?_, hinv'⟩
    show (dijkstraIter g st >>= dijkstraLoop g r) = .ok st'
    rw [hiter]
    simpa using hloop

/-- C9: for every graph (duplicate-free vertex set) and source vertex,
calling Dijkstra with a non-empty target that is not a vertex fails with
the lookup error of `dist[target]` (a `KeyError`) rather than returning a
result. -/
theorem dsa_c9_unknown_target_fails (g : Graph) (start target : String)
    (hnd : g.vertices.Nodup) (hstart : start ∈ g.vertices)
    (htne : target ≠ "") (htnv : target ∉ g.vertices) :
    dijkstra g start target = .error DijErr.keyError := by
  obtain ⟨hinv0, hlen0⟩ := dijkstraInit_inv g start hnd hstart
  obtain ⟨st', hloop, hinv'⟩ :=
    dijkstraLoop_ok g g.vertices.length (dijkstraInit g start) hinv0 hlen0
  unfold dijkstra
  rw [hloop]
  have hmiss : dictGet st'.dist target = none := by
    have := hinv'.1 target
    cases hg : dictGet st'.dist target with
    | none => rfl
    | some dt =>
      rw [hg] at this
      simp at this
      exact absurd this htnv
  show (if target ≠ "" then _ else _) = _
  rw [if_pos htne, hmiss]

theorem dsa_c9_witness :
    dijkstraExampleGraph.vertices.Nodup ∧
    "V1" ∈ dijkstraExampleGraph.vertices ∧
    "V9" ≠ "" ∧
    "V9" ∉ dijkstraExampleGraph.vertices ∧
    dijkstra dijkstraExampleGraph "V1" "V9" = .error DijErr.keyError :=
  ⟨by decide, by decide, by decide, by decide,
    dsa_c9_unknown_target_fails dijkstraExampleGraph "V1" "V9"
      (by decide) (by decide) (by decide) (by decide)⟩
